import Mathlib

/-!
# mountain-inh.h: numeric helpers, list / array conversion, string escape decoder

A shallow embedding of `src/mountain-inh.h`.

* Memory is modelled block-wise: a pointer is either `NULL` or a block
  identifier with an offset counted in objects.  Dereferencing `NULL`, an offset
  outside its block, or a cell that was never written is a `fault`
  (undefined behaviour in C).
* Loops whose termination depends on the input take a fuel argument; running
  out of fuel is the separate outcome `timeout`.
* `unsigned` is 32 bits wide; counters that can reach the type bound wrap
  modulo `2 ^ 32`.  `int` is 32 and `long` 64 bits wide; negation wraps.
* `float` is IEEE 754 binary32 with round to nearest, ties to even.
-/

namespace MountainInh

/-! ## Outcomes, pointers, heap -/

/-- Outcome of running a fragment of the program. -/
inductive Res (α : Type) where
  | ok (a : α)
  | fault
  | timeout
deriving DecidableEq, Repr

/-- A pointer to a list node: `NULL`, or block `block` at object offset `off`. -/
inductive Ptr where
  | null
  | addr (block off : Nat)
deriving DecidableEq, Repr

/-- Pointer arithmetic `p + 1`; only ever evaluated on non-null pointers. -/
def Ptr.succ : Ptr → Ptr
  | .null => .null
  | .addr b off => .addr b (off + 1)

/-- `struct LListNode`: an opaque value reference and the next pointer. -/
structure LListNode (α : Type) where
  val : α
  next : Ptr
deriving DecidableEq, Repr

/-- The node heap: a list of allocated blocks; a cell is `none` until written. -/
abbrev Heap (α : Type) := List (List (Option (LListNode α)))

/-- Read `*p`. -/
def Heap.deref {α : Type} (h : Heap α) : Ptr → Res (LListNode α)
  | .null => .fault
  | .addr b off =>
    match h[b]? with
    | some blk =>
      match blk[off]? with
      | some (some n) => .ok n
      | _ => .fault
    | none => .fault

/-- Write `*p = n`. -/
def Heap.store {α : Type} (h : Heap α) : Ptr → LListNode α → Res (Heap α)
  | .null, _ => .fault
  | .addr b off, n =>
    match h[b]? with
    | some blk =>
      if off < blk.length then .ok (h.set b (blk.set off (some n))) else .fault
    | none => .fault

/-- Successful `malloc` of `n` nodes: a fresh block of `n` unwritten cells. -/
def mallocNodes {α : Type} (h : Heap α) (n : Nat) : Heap α × Ptr :=
  (h ++ [List.replicate n none], .addr h.length 0)

/-- Width of `unsigned`: values are taken modulo `2 ^ 32`. -/
def UINT_MOD : Nat := 2 ^ 32

/-! ## `LListLength` -/

/-- The `while (list) { n++; list = list->next; }` loop of `LListLength`.
The counter is a `long`; it cannot overflow, because a 64-bit address space
holds fewer than `2 ^ 63` distinct 16-byte nodes, so it is an unbounded `Int`. -/
def LListLength.loop {α : Type} (h : Heap α) : Nat → Ptr → Int → Res Int
  | 0, _, _ => .timeout
  | fuel + 1, list, n =>
    match list with
    | .null => .ok n
    | .addr b off =>
      match h.deref (.addr b off) with
      | .ok node => LListLength.loop h fuel node.next (n + 1)
      | .fault => .fault
      | .timeout => .timeout

/-- `long LListLength(LListNode_t *list)`. -/
def LListLength {α : Type} (fuel : Nat) (h : Heap α) (list : Ptr) : Res Int :=
  LListLength.loop h fuel list 0

/-! ## `LListToArr` -/

/-- The `for (unsigned i = 0; list; i++, list = list->next) p[i] = list->val;`
loop of `LListToArr`.  `p` is the freshly allocated array (a cell is `none`
until written) and `i` is an `unsigned`, so `i++` wraps. -/
def LListToArr.loop {α : Type} (h : Heap α) :
    Nat → Ptr → Nat → List (Option α) → Res (List (Option α))
  | 0, _, _, _ => .timeout
  | fuel + 1, list, i, p =>
    match list with
    | .null => .ok p
    | .addr b off =>
      match h.deref (.addr b off) with
      | .ok node =>
        if i < p.length then
          LListToArr.loop h fuel node.next ((i + 1) % UINT_MOD) (p.set i (some node.val))
        else .fault
      | .fault => .fault
      | .timeout => .timeout

/-- `void **LListToArr(LListNode_t *list)`: the contents of the returned array. -/
def LListToArr {α : Type} (fuel : Nat) (h : Heap α) (list : Ptr) : Res (List (Option α)) :=
  match LListLength fuel h list with
  | .ok n => LListToArr.loop h fuel list 0 (List.replicate n.toNat none)
  | .fault => .fault
  | .timeout => .timeout

/-! ## `ArrToLList` -/

/-- The `for (unsigned i = 0; i < len; i++, p = p->next)` loop of `ArrToLList`.
The body stores `p->val = arr[i]; p->next = p + 1;`.  Since `i < len` holds
before `i++`, the increment cannot wrap. -/
def ArrToLList.loop {α : Type} (arr : List α) (len : Nat) :
    Nat → Nat → Ptr → Heap α → Res (Heap α)
  | 0, _, _, _ => .timeout
  | fuel + 1, i, p, h =>
    if i < len then
      match arr[i]? with
      | none => .fault
      | some v =>
        match h.store p ⟨v, p.succ⟩ with
        | .ok h1 =>
          match h1.deref p with
          | .ok node => ArrToLList.loop arr len fuel (i + 1) node.next h1
          | .fault => .fault
          | .timeout => .timeout
        | .fault => .fault
        | .timeout => .timeout
    else .ok h

/-- `LListNode_t *ArrToLList(void **arr, unsigned len)`: the heap after the call
and the returned pointer.  The loop runs at most `len` times, so `len + 1`
units of fuel always suffice. -/
def ArrToLList {α : Type} (h : Heap α) (arr : List α) (len : Nat) : Res (Heap α × Ptr) :=
  if len = 0 then .ok (h, .null)
  else
    let m := mallocNodes h len
    match ArrToLList.loop arr len (len + 1) 0 m.2 m.1 with
    | .ok h1 => .ok (h1, m.2)
    | .fault => .fault
    | .timeout => .timeout

/-! ## `stringEscape` -/

/-- The character `'\\'`. -/
def BACKSLASH : Nat := 92

/-- The `switch (c)` of `stringEscape`, on character codes:
`'e'` = 101, `'a'` = 97, `'b'` = 98, `'n'` = 110, `'r'` = 114, `'t'` = 116. -/
def escapeSwitch (c : Nat) : Nat :=
  match c with
  | 101 => 27
  | 97 => 7
  | 98 => 8
  | 110 => 10
  | 114 => 13
  | 116 => 9
  | _ => c

/-- The variables of `stringEscape` that change while it runs: the buffer,
the read index `r` and the write index `w`. -/
structure EscState where
  str : List Nat
  r : Nat
  w : Nat
deriving DecidableEq, Repr

/-- The loop condition `r < len && str[r]`. -/
def stringEscape.cond (len : Nat) (s : EscState) : Res Bool :=
  if s.r < len then
    match s.str[s.r]? with
    | some c => .ok (c != 0)
    | none => .fault
  else .ok false

/-- The tail `str[w] = c; r++; w++;` of the loop body. -/
def stringEscape.emit (s : EscState) (r : Nat) (c : Nat) : Res EscState :=
  if s.w < s.str.length then
    .ok ⟨s.str.set s.w c, (r + 1) % UINT_MOD, (s.w + 1) % UINT_MOD⟩
  else .fault

/-- One pass through the loop body. -/
def stringEscape.body (s : EscState) : Res EscState :=
  match s.str[s.r]? with
  | none => .fault
  | some c =>
    if c = BACKSLASH then
      let r1 := (s.r + 1) % UINT_MOD
      match s.str[r1]? with
      | none => .fault
      | some c1 => stringEscape.emit s r1 (escapeSwitch c1)
    else stringEscape.emit s s.r c

/-- The `while` loop of `stringEscape` followed by `str[w] = 0; return w;`. -/
def stringEscape.loop (len : Nat) : Nat → EscState → Res (List Nat × Nat)
  | 0, _ => .timeout
  | fuel + 1, s =>
    match stringEscape.cond len s with
    | .ok true =>
      match stringEscape.body s with
      | .ok s1 => stringEscape.loop len fuel s1
      | .fault => .fault
      | .timeout => .timeout
    | .ok false =>
      if s.w < s.str.length then .ok (s.str.set s.w 0, s.w) else .fault
    | .fault => .fault
    | .timeout => .timeout

/-- `unsigned stringEscape(char *str, unsigned len)`: the buffer after the
call (`none` for a null `str`) and the returned length. -/
def stringEscape (fuel : Nat) (str : Option (List Nat)) (len : Nat) :
    Res (Option (List Nat) × Nat) :=
  match str with
  | none => .ok (none, 0)
  | some buf =>
    if len ≤ 0 then .ok (some buf, 0)
    else
      match stringEscape.loop len fuel ⟨buf, 0, 0⟩ with
      | .ok (out, w) => .ok (some out, w)
      | .fault => .fault
      | .timeout => .timeout

/-! ## Numeric helpers

`int` is 32 bits wide and `long` 64 bits; values are mathematical integers
and the one operation that can leave the range, unary minus, wraps. -/

/-- The least `int`. -/
def INT_MIN : Int := -(2 ^ 31)

/-- The greatest `int`. -/
def INT_MAX : Int := 2 ^ 31 - 1

/-- The least `long`. -/
def LONG_MIN : Int := -(2 ^ 63)

/-- The greatest `long`. -/
def LONG_MAX : Int := 2 ^ 63 - 1

/-- Reduction of a mathematical integer to the `int` range, modulo `2 ^ 32`. -/
def wrapInt (n : Int) : Int := (n + 2 ^ 31) % 2 ^ 32 - 2 ^ 31

/-- Reduction of a mathematical integer to the `long` range, modulo `2 ^ 64`. -/
def wrapLong (n : Int) : Int := (n + 2 ^ 63) % 2 ^ 64 - 2 ^ 63

/-- `long longMin(long x, long y) { return (x < y)? x : y; }` -/
def longMin (x y : Int) : Int := if x < y then x else y

/-- `long longMax(long x, long y) { return (x > y)? x : y; }` -/
def longMax (x y : Int) : Int := if x > y then x else y

/-- `long longAbs(long x) { return (x >= 0)? x : -x; }` -/
def longAbs (x : Int) : Int := if x ≥ 0 then x else wrapLong (-x)

/-- `int intMin(int x, int y) { return (x < y)? x : y; }` -/
def intMin (x y : Int) : Int := if x < y then x else y

/-- `int intMax(int x, int y) { return (x > y)? x : y; }` -/
def intMax (x y : Int) : Int := if x > y then x else y

/-- `int intAbs(int x) { return (x >= 0)? x : -x; }` -/
def intAbs (x : Int) : Int := if x ≥ 0 then x else wrapInt (-x)

/-- `uint uintMin(uint x, uint y) { return (x < y)? x : y; }` -/
def uintMin (x y : Nat) : Nat := if x < y then x else y

/-- `uint uintMax(uint x, uint y) { return (x > y)? x : y; }` -/
def uintMax (x y : Nat) : Nat := if x > y then x else y

/-! ## `floatLinearInterpolate`

`float` is IEEE 754 binary32: every operation computes the exact result and
rounds it to nearest, ties to even; results too large become an infinity,
division by zero gives an infinity or not-a-number.  The operations are
evaluated one by one in `float` precision. -/

/-- A value of C `float` (IEEE 754 binary32): not-a-number, an infinity, or
the finite value `(-1)^neg * m * 2^e`. -/
inductive F32 where
  | nan
  | inf (neg : Bool)
  | fin (neg : Bool) (m : Nat) (e : Int)
deriving DecidableEq, Repr

/-- Removes factors of two from the significand (at most `fuel` of them). -/
def F32.strip : Nat → Nat → Int → Nat × Int
  | 0, m, e => (m, e)
  | fuel + 1, m, e => if m % 2 = 0 then F32.strip fuel (m / 2) (e + 1) else (m, e)

/-- The canonical significand and exponent of `m * 2^e`: zero is `(0, 0)`,
any other value has an odd significand. -/
def F32.normalize (m : Nat) (e : Int) : Nat × Int :=
  if m = 0 then (0, 0) else F32.strip 32 m e

/-- `floor (log2 n)` by repeated halving, at most `fuel` times. -/
def ilog2Fuel : Nat → Nat → Nat
  | 0, _ => 0
  | fuel + 1, n => if n < 2 then 0 else ilog2Fuel fuel (n / 2) + 1

/-- `floor (log2 n)` for positive `n`. -/
def ilog2 (n : Nat) : Nat := ilog2Fuel n n

/-- `floor (log2 (N / D))` for positive `N` and `D`. -/
def floorLog2Q (N D : Nat) : Int :=
  let k : Int := (ilog2 N : Int) - (ilog2 D : Int)
  if D * 2 ^ k.toNat ≤ N * 2 ^ (-k).toNat then k else k - 1

/-- Rounding of the rational `N / D` (`D > 0`) with sign `neg` to binary32,
to nearest, ties to even. -/
def roundQ (neg : Bool) (N D : Nat) : F32 :=
  if N = 0 then .fin neg 0 0
  else
    let u : Int := max (floorLog2Q N D - 23) (-149)
    let num := N * 2 ^ (-u).toNat
    let den := D * 2 ^ u.toNat
    let k := num / den
    let r := num % den
    let m := if 2 * r < den then k else if den < 2 * r then k + 1
      else if k % 2 = 0 then k else k + 1
    if 104 < u then .inf neg
    else if u = 104 ∧ m = 2 ^ 24 then .inf neg
    else .fin neg (F32.normalize m u).1 (F32.normalize m u).2

/-- Unary minus: the sign is flipped. -/
def F32.neg : F32 → F32
  | .nan => .nan
  | .inf s => .inf (!s)
  | .fin s m e => .fin (!s) m e

/-- Binary32 addition: the exact sum, rounded.  An exact zero sum is `+0`
unless both operands are negative. -/
def F32.add : F32 → F32 → F32
  | .nan, _ => .nan
  | _, .nan => .nan
  | .inf s, .inf t => if s = t then .inf s else .nan
  | .inf s, .fin _ _ _ => .inf s
  | .fin _ _ _, .inf t => .inf t
  | .fin s m e, .fin t n f =>
    let g : Int := min e f
    let a : Int := (if s then -1 else 1) * (m * 2 ^ (e - g).toNat : Nat)
    let b : Int := (if t then -1 else 1) * (n * 2 ^ (f - g).toNat : Nat)
    let c : Int := a + b
    if c = 0 then .fin (s && t) 0 0
    else roundQ (decide (c < 0)) (c.natAbs * 2 ^ g.toNat) (2 ^ (-g).toNat)

/-- Binary32 subtraction, `a + (-b)`. -/
def F32.sub (a b : F32) : F32 := F32.add a (F32.neg b)

/-- Binary32 multiplication: the exact product, rounded; `inf * 0` is not a
number. -/
def F32.mul : F32 → F32 → F32
  | .nan, _ => .nan
  | _, .nan => .nan
  | .inf s, .inf t => .inf (xor s t)
  | .inf s, .fin t n _ => if n = 0 then .nan else .inf (xor s t)
  | .fin s m _, .inf t => if m = 0 then .nan else .inf (xor s t)
  | .fin s m e, .fin t n f =>
    if m = 0 ∨ n = 0 then .fin (xor s t) 0 0
    else roundQ (xor s t) (m * n * 2 ^ (e + f).toNat) (2 ^ (-(e + f)).toNat)

/-- Binary32 division: the exact quotient, rounded; a non-zero value divided
by zero is an infinity, `0 / 0` and `inf / inf` are not a number. -/
def F32.div : F32 → F32 → F32
  | .nan, _ => .nan
  | _, .nan => .nan
  | .inf _, .inf _ => .nan
  | .inf s, .fin t _ _ => .inf (xor s t)
  | .fin s _ _, .inf t => .fin (xor s t) 0 0
  | .fin s m e, .fin t n f =>
    if n = 0 then (if m = 0 then .nan else .inf (xor s t))
    else if m = 0 then .fin (xor s t) 0 0
    else roundQ (xor s t) (m * 2 ^ e.toNat * 2 ^ (-f).toNat) (n * 2 ^ f.toNat * 2 ^ (-e).toNat)

/-- A finite binary32 value in canonical form: a zero, or an odd significand
below `2 ^ 24` with an exponent of at least `-149` and a magnitude below
`2 ^ 128`. -/
def F32.IsFinite : F32 → Prop
  | .nan => False
  | .inf _ => False
  | .fin _ m e => (m = 0 ∧ e = 0) ∨ (m % 2 = 1 ∧ m < 2 ^ 24 ∧ -149 ≤ e ∧ (ilog2 m : Int) + e ≤ 127)

/-- Whether a value is a canonical finite binary32 number can be computed. -/
instance F32.decIsFinite (f : F32) : Decidable f.IsFinite := by
  cases f <;> unfold F32.IsFinite <;> infer_instance

/-- `floatLinearInterpolate`:
`return ret_min + (ret_max - ret_min) * ((x - x_min) / (x_max - x_min));`
with every operation a binary32 operation. -/
def floatLinearInterpolate (x x_min x_max ret_min ret_max : F32) : F32 :=
  F32.add ret_min
    (F32.mul (F32.sub ret_max ret_min) (F32.div (F32.sub x x_min) (F32.sub x_max x_min)))

/-! ## `loadFile` -/

/-- What the C library answers during a call of `loadFile`: `fopen` gives the
bytes of the named file, or `none` when it cannot be opened; `malloc` tells
whether an allocation of the given size succeeds. -/
structure FileEnv where
  fopen : List Nat → Option (List Nat)
  malloc : Nat → Bool

/-- `uint loadFile(const char *filename, char **text_out)`: the returned value
and the contents of `*text_out` after the call (`text_out` is its contents
before the call).  `uint len = ftell(fp)` keeps the size modulo `2 ^ 32`, and
`len + 1` is computed in `unsigned`; when it wraps to `0` the buffer is too
small for `fread` and the terminator. -/
def loadFile (env : FileEnv) (filename : List Nat) (text_out : Option (List Nat)) :
    Res (Nat × Option (List Nat)) :=
  match env.fopen filename with
  | none => .ok (0, text_out)
  | some contents =>
    let len := contents.length % UINT_MOD
    let size := (len + 1) % UINT_MOD
    if env.malloc size then
      if len < size then .ok (len, some (contents.take len ++ [0])) else .fault
    else .ok (0, text_out)

/-! ## Reference decoder, written from the specification -/

/-- The escape table of the specification: `e`, `a`, `b`, `n`, `r`, `t` map to
0x1B, 0x07, 0x08, 0x0A, 0x0D, 0x09; any other character maps to itself. -/
def refEscape (c : Nat) : Nat :=
  if c = 101 then 0x1B
  else if c = 97 then 0x07
  else if c = 98 then 0x08
  else if c = 110 then 0x0A
  else if c = 114 then 0x0D
  else if c = 116 then 0x09
  else c

/-- Reference decoding of a text, scanning left to right: a backslash consumes
itself and the following character. -/
def refDecode : List Nat → List Nat
  | [] => []
  | [c] => [c]
  | c :: d :: rest =>
    if c = 92 then refEscape d :: refDecode rest else c :: refDecode (d :: rest)

/-- The text ends in a backslash that introduces an escape. -/
def endsInOpenEscape : List Nat → Bool
  | [] => false
  | [c] => c == 92
  | c :: d :: rest =>
    if c = 92 then endsInOpenEscape rest else endsInOpenEscape (d :: rest)

/-! ## Specification-side notions for lists -/

/-- The cells `ArrToLList` writes for the values `vs` when the first of them
goes to offset `i` of block `b`. -/
def blockOf {α : Type} (b : Nat) : Nat → List α → List (Option (LListNode α))
  | _, [] => []
  | i, v :: vs => some ⟨v, .addr b (i + 1)⟩ :: blockOf b (i + 1) vs

/-- The chain starting at `p` reaches the terminal marker and its nodes hold,
head first, exactly the values `vs`. -/
def IsList {α : Type} (h : Heap α) : Ptr → List α → Prop
  | p, [] => p = .null
  | p, v :: vs =>
    match h.deref p with
    | .ok n => n.val = v ∧ IsList h n.next vs
    | .fault => False
    | .timeout => False

/-- The node reached from `p` by following `i` next-references. -/
def nthNode {α : Type} (h : Heap α) : Nat → Ptr → Res (LListNode α)
  | 0, p => h.deref p
  | i + 1, p =>
    match h.deref p with
    | .ok n => nthNode h i n.next
    | .fault => .fault
    | .timeout => .timeout

/-- The array `p` after the copy loop of `LListToArr` has stored the values
`vs`, the first of them at index `i`: every store goes to the current
`unsigned` index, which then advances modulo `2 ^ 32`. -/
def wrapWrites {α : Type} : Nat → List α → List (Option α) → List (Option α)
  | _, [], p => p
  | i, v :: vs, p => wrapWrites ((i + 1) % UINT_MOD) vs (p.set i (some v))

/-- A block of consecutive nodes holding `vs` as a terminated list: each node
points to the following cell and the last one to `NULL`.  The first node sits
at offset `i` of block `b`. -/
def listBlock {α : Type} (b : Nat) : Nat → List α → List (Option (LListNode α))
  | _, [] => []
  | _, [v] => [some ⟨v, .null⟩]
  | i, v :: w :: vs => some ⟨v, .addr b (i + 1)⟩ :: listBlock b (i + 1) (w :: vs)

/-- Values of a list with `2 ^ 32 + 1` nodes: all `0` except the last, `1`. -/
@[irreducible]
def bigList : List Nat := List.replicate UINT_MOD 0 ++ [1]

/-- A heap whose single block holds `bigList` as a terminated list. -/
def bigHeap : Heap Nat := [listBlock 0 0 bigList]

/-- The chain of next-references from `p` reaches the terminal marker after
exactly `k` nodes. -/
def chainEnds {α : Type} (h : Heap α) : Nat → Ptr → Prop
  | 0, p => p = .null
  | k + 1, p =>
    match h.deref p with
    | .ok n => chainEnds h k n.next
    | .fault => False
    | .timeout => False

/-- A heap whose only node points to itself: a cyclic list. -/
def cyclicHeap : Heap Nat := [[some ⟨1, .addr 0 0⟩]]

/-! ## Specification-side notions for `stringEscape` -/

/-- The state of `stringEscape` after `k` passes through the loop body, when
the loop runs that often (`none` when it stops or faults earlier). -/
def stringEscape.stateAt (len : Nat) : Nat → EscState → Option EscState
  | 0, s => some s
  | k + 1, s =>
    match stringEscape.cond len s with
    | .ok true =>
      match stringEscape.body s with
      | .ok s1 => stringEscape.stateAt len k s1
      | .fault => none
      | .timeout => none
    | .ok false => none
    | .fault => none
    | .timeout => none

/-- The read index at the moment the loop body stores `str[w] = c`: one past
the backslash when the pass decodes an escape. -/
def stringEscape.readIndexAtWrite (s : EscState) : Nat :=
  if s.str[s.r]? = some BACKSLASH then (s.r + 1) % UINT_MOD else s.r

/-- The length of the text in a buffer under the bound `len`: the number of
characters before the first nul among the first `len` characters. -/
def textLength (buf : List Nat) (len : Nat) : Nat :=
  ((buf.take len).takeWhile (fun c => c != 0)).length

/-- A buffer of `2 ^ 32` characters: `2 ^ 32 - 2` letters `a`, a backslash and
the terminating nul. -/
@[irreducible]
def bigBuf : List Nat := List.replicate (UINT_MOD - 2) 97 ++ [92, 0]

/-! ## Heap lemmas -/

theorem store_append_last {α : Type} (h0 : Heap α) (blk : List (Option (LListNode α)))
    (i : Nat) (n : LListNode α) (hi : i < blk.length) :
    Heap.store (h0 ++ [blk]) (.addr h0.length i) n = .ok (h0 ++ [blk.set i (some n)]) := by
  simp [Heap.store, hi]

theorem deref_append_last {α : Type} (h0 : Heap α) (blk : List (Option (LListNode α)))
    (i : Nat) : Heap.deref (h0 ++ [blk]) (.addr h0.length i) =
      match blk[i]? with
      | some (some n) => .ok n
      | _ => .fault := by
  simp [Heap.deref]

theorem take_set_of_le {β : Type} (l : List β) (a : β) {m n : Nat} (hmn : m ≤ n) :
    (l.set n a).take m = l.take m := by
  rw [List.set_take]
  exact List.set_eq_of_length_le (by simp; omega)

theorem blockOf_length {α : Type} (b : Nat) (vs : List α) :
    ∀ i, (@blockOf α b i vs).length = vs.length := by
  induction vs with
  | nil => intro i; rfl
  | cons v vs ih => intro i; simp [blockOf, ih]

theorem blockOf_getElem? {α : Type} (b : Nat) (vs : List α) :
    ∀ i j, (blockOf b i vs)[j]? = (vs[j]?).map (fun v => some (LListNode.mk v (.addr b (i + j + 1)))) := by
  induction vs with
  | nil => intro i j; simp [blockOf]
  | cons v vs ih =>
    intro i j
    cases j with
    | zero => simp [blockOf]
    | succ j =>
      simp only [blockOf, List.getElem?_cons_succ, ih]
      have : i + 1 + j + 1 = i + (j + 1) + 1 := by omega
      rw [this]

/-! ## `ArrToLList`: closed form of the result -/

theorem ArrToLList_loop_eq {α : Type} (arr : List α) (len : Nat) (h0 : Heap α) :
    ∀ (k i fuel : Nat) (blk : List (Option (LListNode α))) (rest : List α),
      i + k = len → blk.length = len → arr.drop i = rest → k ≤ rest.length → k < fuel →
      ArrToLList.loop arr len fuel i (.addr h0.length i) (h0 ++ [blk]) =
        .ok (h0 ++ [blk.take i ++ blockOf h0.length i (rest.take k)]) := by
  intro k
  induction k with
  | zero =>
    intro i fuel blk rest hik hblk _ _ hfuel
    obtain ⟨f, rfl⟩ : ∃ f, fuel = f + 1 := ⟨fuel - 1, by omega⟩
    have hi : ¬ i < len := by omega
    have : List.take i blk = blk := List.take_of_length_le (by omega)
    simp [ArrToLList.loop, hi, blockOf, this]
  | succ k ih =>
    intro i fuel blk rest hik hblk hrest hk hfuel
    obtain ⟨f, rfl⟩ : ∃ f, fuel = f + 1 := ⟨fuel - 1, by omega⟩
    have hi : i < len := by omega
    cases rest with
    | nil => simp at hk
    | cons v rest1 =>
      have hget : arr[i]? = some v := by
        have := congrArg (fun l => l[0]?) hrest
        simpa using this
      have hrest1 : arr.drop (i + 1) = rest1 := by
        have := congrArg (List.drop 1) hrest
        simpa [List.drop_drop, Nat.add_comm] using this
      have hib : i < blk.length := by omega
      rw [ArrToLList.loop, if_pos hi, hget]
      simp only [Ptr.succ, store_append_last h0 blk i _ hib, deref_append_last]
      simp only [List.getElem?_set_self hib]
      rw [ih (i + 1) f (blk.set i _) rest1 (by omega) (by simpa using hblk) hrest1
        (by simpa using hk) (by omega)]
      simp [blockOf, take_set_of_le, List.take_succ, List.getElem?_set_self hib]

theorem ArrToLList_eq {α : Type} (h : Heap α) (arr : List α) (len : Nat)
    (hpos : 0 < len) (hlen : len ≤ arr.length) :
    ArrToLList h arr len =
      .ok (h ++ [blockOf h.length 0 (arr.take len)], .addr h.length 0) := by
  have hne : len ≠ 0 := by omega
  have := ArrToLList_loop_eq arr len h len 0 (len + 1) (List.replicate len none) arr
    (by omega) (by simp) (by simp) hlen (by omega)
  simp [ArrToLList, hne, mallocNodes, this]

/-! ## Walking the block written by `ArrToLList` -/

theorem deref_blockOf {α : Type} (h : Heap α) (vs : List α) (i : Nat) :
    Heap.deref (h ++ [blockOf h.length 0 vs]) (.addr h.length i) =
      match vs[i]? with
      | some v => .ok ⟨v, .addr h.length (i + 1)⟩
      | none => .fault := by
  rw [deref_append_last, blockOf_getElem?]
  cases vs[i]? <;> simp

theorem nthNode_blockOf {α : Type} (h : Heap α) (vs : List α) :
    ∀ (i j : Nat) (v : α), vs[j + i]? = some v →
      nthNode (h ++ [blockOf h.length 0 vs]) i (.addr h.length j) =
        .ok ⟨v, .addr h.length (j + i + 1)⟩ := by
  intro i
  induction i with
  | zero =>
    intro j v hv
    simp only [Nat.add_zero] at hv
    simp [nthNode, deref_blockOf, hv]
  | succ i ih =>
    intro j v hv
    have hlt : j + (i + 1) < vs.length := (List.getElem?_eq_some_iff.mp hv).1
    have hj : vs[j]? = some (vs.get ⟨j, by omega⟩) := List.getElem?_eq_getElem (by omega)
    rw [nthNode, deref_blockOf, hj]
    have := ih (j + 1) v (by rw [← hv]; congr 1; omega)
    simp only [this]
    congr 2
    simp only [Ptr.addr.injEq, true_and]
    omega

theorem LListLength_loop_blockOf {α : Type} (h : Heap α) (vs : List α) :
    ∀ (fuel i : Nat) (n : Int), i ≤ vs.length →
      LListLength.loop (h ++ [blockOf h.length 0 vs]) fuel (.addr h.length i) n =
        if vs.length - i < fuel then .fault else .timeout := by
  intro fuel
  induction fuel with
  | zero => intro i n _; simp [LListLength.loop]
  | succ fuel ih =>
    intro i n hi
    rw [LListLength.loop, deref_blockOf]
    by_cases hlt : i < vs.length
    · rw [List.getElem?_eq_getElem hlt]
      simp only [ih (i + 1) (n + 1) hlt]
      have : vs.length - (i + 1) < fuel ↔ vs.length - i < fuel + 1 := by omega
      simp [this]
    · have hnone : vs[i]? = none := List.getElem?_eq_none (by omega)
      have : vs.length - i < fuel + 1 := by omega
      simp [hnone, this]

/-! ## `LListLength` and `LListToArr` on terminated lists -/

theorem IsList_cons {α : Type} {h : Heap α} {p : Ptr} {v : α} {vs : List α}
    (hl : IsList h p (v :: vs)) :
    ∃ b off q, p = .addr b off ∧ h.deref p = .ok ⟨v, q⟩ ∧ IsList h q vs := by
  cases p with
  | null => simp [IsList, Heap.deref] at hl
  | addr b off =>
    refine ⟨b, off, ?_⟩
    simp only [IsList] at hl
    cases hd : Heap.deref h (.addr b off) with
    | ok n =>
      rw [hd] at hl
      obtain ⟨hv, hrest⟩ := hl
      cases n with
      | mk val next =>
        simp only at hv hrest
        subst hv
        exact ⟨next, rfl, rfl, hrest⟩
    | fault => simp [hd] at hl
    | timeout => simp [hd] at hl

theorem IsList_of_deref {α : Type} {h : Heap α} {p q : Ptr} {v : α} {vs : List α}
    (hd : h.deref p = .ok ⟨v, q⟩) (hq : IsList h q vs) : IsList h p (v :: vs) := by
  rw [IsList, hd]
  exact ⟨rfl, hq⟩

theorem LListLength_loop_isList {α : Type} (h : Heap α) (vs : List α) :
    ∀ (p : Ptr) (fuel : Nat) (n : Int), IsList h p vs → vs.length < fuel →
      LListLength.loop h fuel p n = .ok (n + vs.length) := by
  induction vs with
  | nil =>
    intro p fuel n hl hf
    obtain ⟨f, rfl⟩ : ∃ f, fuel = f + 1 := ⟨fuel - 1, by simp at hf; omega⟩
    simp only [IsList] at hl
    subst hl
    simp [LListLength.loop]
  | cons v vs ih =>
    intro p fuel n hl hf
    obtain ⟨f, rfl⟩ : ∃ f, fuel = f + 1 := ⟨fuel - 1, by simp at hf; omega⟩
    obtain ⟨b, off, q, rfl, hd, hq⟩ := IsList_cons hl
    rw [LListLength.loop, hd]
    simp only
    rw [ih q f (n + 1) hq (by simpa using hf)]
    simp only [List.length_cons, Nat.cast_add, Nat.cast_one]
    congr 1
    ring

theorem UINT_MOD_pos : 0 < UINT_MOD := by simp [UINT_MOD]

theorem LListToArr_loop_null {α : Type} (h : Heap α) (fuel i : Nat) (p : List (Option α)) :
    LListToArr.loop h (fuel + 1) .null i p = .ok p := by
  simp [LListToArr.loop]

theorem wrapWrites_cons {α : Type} (i : Nat) (v : α) (vs : List α) (p : List (Option α)) :
    wrapWrites i (v :: vs) p = wrapWrites ((i + 1) % UINT_MOD) vs (p.set i (some v)) := rfl

theorem wrapWrites_length {α : Type} (vs : List α) :
    ∀ (i : Nat) (p : List (Option α)), (wrapWrites i vs p).length = p.length := by
  induction vs with
  | nil => intro i p; rfl
  | cons v vs ih => intro i p; simp [wrapWrites, ih]

theorem LListToArr_loop_isList {α : Type} (h : Heap α) (vs : List α) :
    ∀ (q : Ptr) (fuel i : Nat) (p : List (Option α)), IsList h q vs → vs.length < fuel →
      i + vs.length ≤ p.length →
      LListToArr.loop h fuel q i p = .ok (wrapWrites i vs p) := by
  induction vs with
  | nil =>
    intro q fuel i p hl hf _
    obtain ⟨f, rfl⟩ : ∃ f, fuel = f + 1 := ⟨fuel - 1, by simp at hf; omega⟩
    simp only [IsList] at hl
    subst hl
    simp [LListToArr.loop, wrapWrites]
  | cons v vs ih =>
    intro q fuel i p hl hf hb
    obtain ⟨f, rfl⟩ : ∃ f, fuel = f + 1 := ⟨fuel - 1, by simp at hf; omega⟩
    obtain ⟨b, off, q1, rfl, hd, hq⟩ := IsList_cons hl
    simp only [List.length_cons] at hf hb
    have hi : i < p.length := by omega
    have hmod : (i + 1) % UINT_MOD ≤ i + 1 := Nat.mod_le _ _
    rw [LListToArr.loop, hd]
    simp only [hi, if_true]
    rw [ih q1 f _ _ hq (by omega) (by simp; omega)]
    rfl

theorem wrapWrites_nowrap {α : Type} (vs : List α) :
    ∀ (i : Nat) (p : List (Option α)), i + vs.length ≤ UINT_MOD → i + vs.length ≤ p.length →
      wrapWrites i vs p = p.take i ++ vs.map some ++ p.drop (i + vs.length) := by
  induction vs with
  | nil => intro i p _ _; simp [wrapWrites]
  | cons v vs ih =>
    intro i p hM hb
    simp only [List.length_cons] at hM hb
    have hi : i < p.length := by omega
    cases vs with
    | nil =>
      simp [wrapWrites, List.set_eq_take_append_cons_drop, hi]
    | cons w vs =>
      simp only [List.length_cons] at hM hb ih
      have hmod : (i + 1) % UINT_MOD = i + 1 := Nat.mod_eq_of_lt (by omega)
      rw [wrapWrites, hmod, ih (i + 1) _ (by omega) (by simp; omega)]
      have h1 : List.take (i + 1) (p.set i (some v)) = List.take i p ++ [some v] := by
        rw [List.take_succ, take_set_of_le _ _ (Nat.le_refl i), List.getElem?_set_self hi]
        rfl
      have h2 : List.drop (i + 1 + (vs.length + 1)) (p.set i (some v)) =
          List.drop (i + (vs.length + 1 + 1)) p := by
        rw [List.drop_set_of_lt _ _ (by omega)]
        congr 1
        omega
      rw [h1, h2]
      simp

theorem wrapWrites_append {α : Type} (vs ws : List α) :
    ∀ (i : Nat) (p : List (Option α)), i < UINT_MOD →
      wrapWrites i (vs ++ ws) p =
        wrapWrites ((i + vs.length) % UINT_MOD) ws (wrapWrites i vs p) := by
  induction vs with
  | nil => intro i p hi; simp [wrapWrites, Nat.mod_eq_of_lt hi]
  | cons v vs ih =>
    intro i p _
    rw [List.cons_append, wrapWrites_cons, wrapWrites_cons, ih _ _ (Nat.mod_lt _ UINT_MOD_pos)]
    congr 1
    rw [Nat.mod_add_mod, List.length_cons]
    congr 1
    omega

theorem wrapWrites_snoc_wrap {α : Type} (vs : List α) (x : α) (p : List (Option α))
    (hlen : vs.length % UINT_MOD = 0) (hp : 0 < p.length) :
    (wrapWrites 0 (vs ++ [x]) p)[0]? = some (some x) := by
  rw [wrapWrites_append vs [x] 0 p UINT_MOD_pos, Nat.zero_add, hlen]
  have : wrapWrites 0 [x] (wrapWrites 0 vs p) = (wrapWrites 0 vs p).set 0 (some x) := rfl
  rw [this, List.getElem?_set_self (by rw [wrapWrites_length]; exact hp)]

theorem IsList_listBlock {α : Type} (h0 : Heap α) (vs : List α) :
    ∀ (i : Nat) (pre : List (Option (LListNode α))), vs ≠ [] → pre.length = i →
      IsList (h0 ++ [pre ++ listBlock h0.length i vs]) (.addr h0.length i) vs := by
  induction vs with
  | nil => intro i pre hne; exact absurd rfl hne
  | cons v vs ih =>
    intro i pre _ hpre
    cases vs with
    | nil =>
      subst hpre
      simp [IsList, listBlock, deref_append_last]
    | cons w vs =>
      have := ih (i + 1) (pre ++ [some ⟨v, .addr h0.length (i + 1)⟩]) (by simp) (by simp [hpre])
      subst hpre
      simp only [List.append_assoc, List.singleton_append] at this
      refine @IsList_of_deref _ _ _ (.addr h0.length (pre.length + 1)) _ _ ?_ this
      rw [deref_append_last, listBlock, List.getElem?_append_right (Nat.le_refl _),
        Nat.sub_self]
      simp

theorem LListLength_isList {α : Type} (h : Heap α) (p : Ptr) (vs : List α) (fuel : Nat)
    (hl : IsList h p vs) (hf : vs.length < fuel) :
    LListLength fuel h p = .ok (vs.length : Int) := by
  rw [LListLength, LListLength_loop_isList h vs p fuel 0 hl hf]
  simp

theorem LListToArr_isList {α : Type} (h : Heap α) (p : Ptr) (vs : List α) (fuel : Nat)
    (hl : IsList h p vs) (hf : vs.length < fuel) :
    LListToArr fuel h p = .ok (wrapWrites 0 vs (List.replicate vs.length none)) := by
  rw [LListToArr, LListLength_isList h p vs fuel hl hf]
  simp only [Int.toNat_ofNat]
  exact LListToArr_loop_isList h vs p fuel 0 _ hl hf (by simp)

theorem IsList_null_iff {α : Type} (h : Heap α) (p : Ptr) (vs : List α) (hl : IsList h p vs) :
    vs = [] ↔ p = .null := by
  cases vs with
  | nil => simpa [IsList] using hl
  | cons v vs =>
    obtain ⟨b, off, q, rfl, _, _⟩ := IsList_cons hl
    simp

/-! ## Claims about the list functions -/

/-- C1. The round trip `LListToArr(ArrToLList(S, len))` works for `len = 0`
(an empty array comes back), but for every non-empty array it returns no array:
the list built by `ArrToLList` is not terminated, so `LListLength` inside
`LListToArr` walks off the end of the node block and the run is a memory fault
(with too little fuel it is still walking). -/
theorem roundtrip_unterminated {α : Type} (h : Heap α) (v : α) (vs : List α) (fuel : Nat) :
    (ArrToLList h ([] : List α) 0 = .ok (h, .null) ∧
      LListToArr (fuel + 1) h .null = .ok []) ∧
    ∃ h1 p, ArrToLList h (v :: vs) (vs.length + 1) = .ok (h1, p) ∧
      LListToArr fuel h1 p = (if vs.length + 1 < fuel then .fault else .timeout) := by
  refine ⟨⟨by simp [ArrToLList], by simp [LListToArr, LListLength, LListLength.loop,
    LListToArr.loop]⟩, _, _, ArrToLList_eq h (v :: vs) (vs.length + 1) (by omega) (by simp), ?_⟩
  have hbl := LListLength_loop_blockOf h (v :: vs) fuel 0 0 (by simp)
  simp only [List.length_cons, Nat.sub_zero] at hbl
  rw [List.take_succ_cons, List.take_length, LListToArr, LListLength, hbl]
  by_cases hf : vs.length + 1 < fuel <;> simp [hf]

/-- C1, at the array `[7]` with `len = 1`: the list is built, and converting
it back faults. -/
theorem roundtrip_unterminated_single :
    ∃ h1 p, ArrToLList ([] : Heap Nat) [7] 1 = .ok (h1, p) ∧ LListToArr 5 h1 p = .fault := by
  obtain ⟨h1, p, h2, h3⟩ := (roundtrip_unterminated ([] : Heap Nat) 7 [] 5).2
  exact ⟨h1, p, h2, by simpa using h3⟩

/-- C2. `LListLength` of the empty list is `0`, and `LListLength(ArrToLList(S, 0))`
is `0`; but for every non-empty array `S` the call
`LListLength(ArrToLList(S, len))` returns no value: the chain is not terminated
and the walk leaves the node block (fault). -/
theorem LListLength_ArrToLList_unterminated {α : Type} (h : Heap α) (v : α) (vs : List α)
    (fuel : Nat) :
    (LListLength (fuel + 1) h .null = .ok 0 ∧
      ∃ h0 p0, ArrToLList h ([] : List α) 0 = .ok (h0, p0) ∧
        LListLength (fuel + 1) h0 p0 = .ok 0) ∧
    ∃ h1 p, ArrToLList h (v :: vs) (vs.length + 1) = .ok (h1, p) ∧
      LListLength fuel h1 p = (if vs.length + 1 < fuel then .fault else .timeout) := by
  refine ⟨⟨by simp [LListLength, LListLength.loop], h, .null, by simp [ArrToLList],
    by simp [LListLength, LListLength.loop]⟩,
    _, _, ArrToLList_eq h (v :: vs) (vs.length + 1) (by omega) (by simp), ?_⟩
  have hbl := LListLength_loop_blockOf h (v :: vs) fuel 0 0 (by simp)
  simp only [List.take_succ_cons, List.take_length, LListLength, hbl,
    List.length_cons, Nat.sub_zero]

/-- C2, at the array `[7, 8]` with `len = 2`: the length of the list built
from it is not `2`; the call faults. -/
theorem LListLength_ArrToLList_pair :
    ∃ h1 p, ArrToLList ([] : Heap Nat) [7, 8] 2 = .ok (h1, p) ∧ LListLength 9 h1 p = .fault := by
  obtain ⟨h1, p, h2, h3⟩ := (LListLength_ArrToLList_unterminated ([] : Heap Nat) 7 [8] 9).2
  exact ⟨h1, p, h2, by simpa using h3⟩

/-- C3. For `len = 0` `ArrToLList` returns the terminal marker.  For a
non-empty array it returns the first cell of a fresh block in which the
next-reference of EVERY node `i`, the last one included, is cell `i + 1` of the
block: the last node does not point to the terminal marker but one past the
end of the block, where no node lives. -/
theorem ArrToLList_next_refs {α : Type} (h : Heap α) (v : α) (vs : List α) :
    ArrToLList h ([] : List α) 0 = .ok (h, .null) ∧
    ∃ h1 last, ArrToLList h (v :: vs) (vs.length + 1) = .ok (h1, .addr h.length 0) ∧
      (∀ i, i ≤ vs.length → ∃ node, nthNode h1 i (.addr h.length 0) = .ok node ∧
        node.next = .addr h.length (i + 1)) ∧
      nthNode h1 vs.length (.addr h.length 0) = .ok last ∧
      last.next = .addr h.length (vs.length + 1) ∧
      last.next ≠ .null ∧
      h1.deref last.next = .fault := by
  refine ⟨by simp [ArrToLList], _, ⟨(v :: vs).getLast (by simp), .addr h.length (vs.length + 1)⟩,
    ArrToLList_eq h (v :: vs) (vs.length + 1) (by omega) (by simp), ?_, ?_, rfl, by simp, ?_⟩
  · intro i hi
    have hlt : 0 + i < (v :: vs).length := by simp; omega
    rw [List.take_succ_cons, List.take_length]
    have := nthNode_blockOf h (v :: vs) i 0 _ (List.getElem?_eq_getElem hlt)
    exact ⟨_, this, by simp⟩
  · rw [List.take_succ_cons, List.take_length]
    have hget : (v :: vs)[0 + vs.length]? = some ((v :: vs).getLast (by simp)) := by
      rw [List.getLast_eq_getElem]
      simp
    have := nthNode_blockOf h (v :: vs) vs.length 0 _ hget
    simpa using this
  · rw [List.take_succ_cons, List.take_length, deref_blockOf]
    simp

/-- C3, at the array `[7]` with `len = 1`: the only node's next-reference is
cell 1 of block 0, not the terminal marker. -/
theorem ArrToLList_next_refs_single :
    ArrToLList ([] : Heap Nat) [7] 1 = .ok ([[some ⟨7, .addr 0 1⟩]], .addr 0 0) := by
  rfl

/-- C8 (as amended). For every terminated list with `n` nodes, `n` at most
`2 ^ 32` (the range of the `unsigned` index of the copy loop), `LListToArr`
returns an array of exactly `n = LListLength(list)` entries whose entry `i` is
the value reference of the `i`-th node, head first. -/
theorem LListToArr_spec {α : Type} (h : Heap α) (p : Ptr) (vs : List α) (fuel : Nat)
    (hl : IsList h p vs) (hn : vs.length ≤ UINT_MOD) (hf : vs.length < fuel) :
    ∃ out, LListToArr fuel h p = .ok out ∧
      LListLength fuel h p = .ok (out.length : Int) ∧
      out.length = vs.length ∧
      out = vs.map some := by
  refine ⟨_, LListToArr_isList h p vs fuel hl hf, ?_, ?_, ?_⟩
  · rw [wrapWrites_length, List.length_replicate]
    exact LListLength_isList h p vs fuel hl hf
  · rw [wrapWrites_length, List.length_replicate]
  · rw [wrapWrites_nowrap vs 0 _ (by omega) (by simp)]
    simp

/-- C8, witness: the three-node list `7, 8, 9` is copied to the array
`[7, 8, 9]`. -/
theorem LListToArr_spec_witness :
    ∃ out, LListToArr 4 ([[some ⟨7, .addr 0 1⟩, some ⟨8, .addr 0 2⟩, some ⟨9, .null⟩]] : Heap Nat)
        (.addr 0 0) = .ok out ∧
      LListLength 4 ([[some ⟨7, .addr 0 1⟩, some ⟨8, .addr 0 2⟩, some ⟨9, .null⟩]] : Heap Nat)
        (.addr 0 0) = .ok (out.length : Int) ∧
      out.length = [7, 8, 9].length ∧
      out = [7, 8, 9].map some :=
  LListToArr_spec _ (.addr 0 0) [7, 8, 9] 4 (by simp [IsList, Heap.deref])
    (by simp [UINT_MOD]) (by simp)

theorem bigList_eq : bigList = List.replicate UINT_MOD 0 ++ [1] := by
  rw [bigList]

theorem bigList_length : bigList.length = UINT_MOD + 1 := by
  rw [bigList_eq, List.length_append, List.length_replicate, List.length_singleton]

theorem bigList_ne_nil : bigList ≠ [] := by
  intro hnil
  have := bigList_length
  rw [hnil] at this
  simp at this

theorem bigList_isList : IsList bigHeap (.addr 0 0) bigList := by
  have := IsList_listBlock ([] : Heap Nat) bigList 0 [] bigList_ne_nil rfl
  rw [List.nil_append, List.nil_append, List.length_nil] at this
  rw [bigHeap]
  exact this

/-- C8, counterexample to the claim as stated: a terminated list of
`2 ^ 32 + 1` nodes whose nodes hold `0, ..., 0, 1`.  `LListToArr` returns, but
the index of the copy loop has wrapped to `0` for the last node, so entry `0`
of the array is the value of the last node (`1`), not of the head (`0`). -/
theorem LListToArr_index_wraps :
    IsList bigHeap (.addr 0 0) bigList ∧ bigList.length = 2 ^ 32 + 1 ∧
    ∃ out, LListToArr (2 ^ 32 + 2) bigHeap (.addr 0 0) = .ok out ∧
      out[0]? = some (some 1) ∧ (bigList.map some)[0]? = some (some 0) ∧
      out ≠ bigList.map some := by
  have hM : (2 : Nat) ^ 32 = UINT_MOD := rfl
  rw [hM]
  have hout := LListToArr_isList bigHeap (.addr 0 0) bigList (UINT_MOD + 2) bigList_isList
    (by rw [bigList_length]; omega)
  have h0 : (wrapWrites 0 bigList (List.replicate bigList.length none))[0]? = some (some 1) := by
    have hw := wrapWrites_snoc_wrap (List.replicate UINT_MOD 0) 1
      (List.replicate bigList.length (none : Option Nat))
      (by rw [List.length_replicate, Nat.mod_self])
      (by rw [List.length_replicate, bigList_length]; omega)
    rw [← bigList_eq] at hw
    exact hw
  have h1 : (bigList.map some)[0]? = some (some 0) := by
    rw [List.getElem?_map, bigList_eq,
      List.getElem?_append_left (by rw [List.length_replicate]; exact UINT_MOD_pos),
      List.getElem?_replicate, if_pos UINT_MOD_pos]
    rfl
  refine ⟨bigList_isList, bigList_length, _, hout, h0, h1, ?_⟩
  intro heq
  rw [heq, h1] at h0
  exact absurd h0 (by decide)

/-- C9. For every array `arr` holding at least `len >= 1` entries and every
`i < len`, following `i` next-references from the head returned by
`ArrToLList(arr, len)` reaches a node whose value reference is `arr[i]`; the
head itself holds `arr[0]`. -/
theorem ArrToLList_values {α : Type} (h : Heap α) (arr : List α) (len i : Nat)
    (hpos : 1 ≤ len) (hlen : len ≤ arr.length) (hi : i < len) :
    ∃ h1 head node, ArrToLList h arr len = .ok (h1, head) ∧
      nthNode h1 i head = .ok node ∧ arr[i]? = some node.val ∧
      ∃ first, h1.deref head = .ok first ∧ arr[0]? = some first.val := by
  have hget : ∀ j (hj : j < len),
      (arr.take len)[0 + j]? = some (arr.get ⟨j, Nat.lt_of_lt_of_le hj hlen⟩) := by
    intro j hj
    rw [List.getElem?_take_of_lt (by omega), Nat.zero_add]
    exact List.getElem?_eq_getElem (by omega)
  refine ⟨_, _, _, ArrToLList_eq h arr len hpos hlen,
    nthNode_blockOf h (arr.take len) i 0 _ (hget i hi), ?_, _,
    nthNode_blockOf h (arr.take len) 0 0 _ (hget 0 (by omega)), ?_⟩
  · exact List.getElem?_eq_getElem (by omega)
  · exact List.getElem?_eq_getElem (by omega)

/-- C9, witness: in the list built from `[7, 8, 9]` the node two steps from the
head holds `9`. -/
theorem ArrToLList_values_witness :
    ∃ h1 head node, ArrToLList ([] : Heap Nat) [7, 8, 9] 3 = .ok (h1, head) ∧
      nthNode h1 2 head = .ok node ∧ [7, 8, 9][2]? = some node.val ∧
      ∃ first, h1.deref head = .ok first ∧ [7, 8, 9][0]? = some first.val :=
  ArrToLList_values [] [7, 8, 9] 3 2 (by decide) (by decide) (by decide)

/-- C10. For every terminated list, `LListLength` returns the number of nodes
on the chain before the terminal marker; the result is non-negative, it is `0`
exactly for the empty list, and the length of a node's list is one more than
the length of the list of its next-reference. -/
theorem LListLength_spec {α : Type} (h : Heap α) (p : Ptr) (vs : List α) (fuel : Nat)
    (hl : IsList h p vs) (hf : vs.length < fuel) :
    ∃ n : Int, LListLength fuel h p = .ok n ∧ n = (vs.length : Int) ∧ 0 ≤ n ∧
      (n = 0 ↔ p = .null) ∧
      ∀ node, h.deref p = .ok node →
        ∃ m : Int, LListLength fuel h node.next = .ok m ∧ n = m + 1 := by
  refine ⟨_, LListLength_isList h p vs fuel hl hf, rfl, by simp, ?_, ?_⟩
  · rw [← IsList_null_iff h p vs hl]
    simp
  · intro node hnode
    cases vs with
    | nil =>
      simp only [IsList] at hl
      subst hl
      simp [Heap.deref] at hnode
    | cons v vs =>
      obtain ⟨b, off, q, rfl, hd, hq⟩ := IsList_cons hl
      rw [hd] at hnode
      cases hnode
      exact ⟨_, LListLength_isList h q vs fuel hq (by simp at hf; omega), by simp⟩

/-- C10, witness: the two-node list `5, 6` has length `2`. -/
theorem LListLength_spec_witness :
    ∃ n : Int, LListLength 3 ([[some ⟨5, .addr 0 1⟩, some ⟨6, .null⟩]] : Heap Nat) (.addr 0 0)
        = .ok n ∧ n = (([5, 6] : List Nat).length : Int) ∧ 0 ≤ n ∧
      (n = 0 ↔ Ptr.addr 0 0 = .null) ∧
      ∀ node, Heap.deref ([[some ⟨5, .addr 0 1⟩, some ⟨6, .null⟩]] : Heap Nat) (.addr 0 0)
          = .ok node →
        ∃ m : Int, LListLength 3 ([[some ⟨5, .addr 0 1⟩, some ⟨6, .null⟩]] : Heap Nat)
          node.next = .ok m ∧ n = m + 1 :=
  LListLength_spec _ (.addr 0 0) [5, 6] 3 (by simp [IsList, Heap.deref]) (by simp)

/-! ## `stringEscape`: the loop, step by step -/

theorem escapeSwitch_eq_refEscape (c : Nat) : escapeSwitch c = refEscape c := by
  unfold escapeSwitch refEscape
  split <;> simp_all

theorem refDecode_cons_plain (c : Nat) (t : List Nat) (hc : c ≠ 92) :
    refDecode (c :: t) = c :: refDecode t := by
  cases t with
  | nil => simp [refDecode]
  | cons d t => simp [refDecode, hc]

theorem endsInOpenEscape_cons_plain (c : Nat) (t : List Nat) (hc : c ≠ 92) :
    endsInOpenEscape (c :: t) = endsInOpenEscape t := by
  cases t with
  | nil => simp [endsInOpenEscape, hc]
  | cons d t => simp [endsInOpenEscape, hc]

theorem escLoop_stop (len fuel : Nat) (s : EscState) (hw : s.w < s.str.length)
    (hstop : ¬ s.r < len ∨ s.str[s.r]? = some 0) :
    stringEscape.loop len (fuel + 1) s = .ok (s.str.set s.w 0, s.w) := by
  have hcond : stringEscape.cond len s = .ok false := by
    unfold stringEscape.cond
    rcases hstop with h | h
    · simp [h]
    · by_cases hr : s.r < len <;> simp [hr, h]
  simp [stringEscape.loop, hcond, hw]

theorem escLoop_plain (len fuel : Nat) (s : EscState) (c : Nat) (hr : s.r < len)
    (hc : s.str[s.r]? = some c) (h0 : c ≠ 0) (hb : c ≠ 92) (hw : s.w < s.str.length) :
    stringEscape.loop len (fuel + 1) s =
      stringEscape.loop len fuel ⟨s.str.set s.w c, (s.r + 1) % UINT_MOD, (s.w + 1) % UINT_MOD⟩ := by
  have hcond : stringEscape.cond len s = .ok true := by
    simp [stringEscape.cond, hr, hc, h0]
  have hbody : stringEscape.body s =
      .ok ⟨s.str.set s.w c, (s.r + 1) % UINT_MOD, (s.w + 1) % UINT_MOD⟩ := by
    simp [stringEscape.body, hc, BACKSLASH, hb, stringEscape.emit, hw]
  simp [stringEscape.loop, hcond, hbody]

theorem escLoop_escape (len fuel : Nat) (s : EscState) (d : Nat) (hr : s.r < len)
    (hc : s.str[s.r]? = some 92) (hd : s.str[(s.r + 1) % UINT_MOD]? = some d)
    (hw : s.w < s.str.length) :
    stringEscape.loop len (fuel + 1) s =
      stringEscape.loop len fuel
        ⟨s.str.set s.w (escapeSwitch d), ((s.r + 1) % UINT_MOD + 1) % UINT_MOD,
          (s.w + 1) % UINT_MOD⟩ := by
  have hcond : stringEscape.cond len s = .ok true := by
    simp [stringEscape.cond, hr, hc]
  have hbody : stringEscape.body s =
      .ok ⟨s.str.set s.w (escapeSwitch d), ((s.r + 1) % UINT_MOD + 1) % UINT_MOD,
        (s.w + 1) % UINT_MOD⟩ := by
    simp [stringEscape.body, hc, BACKSLASH, hd, stringEscape.emit, hw]
  simp [stringEscape.loop, hcond, hbody]

theorem getElem?_of_drop_eq {β : Type} {l t : List β} {r : Nat} (h : l.drop r = t) (j : Nat) :
    l[r + j]? = t[j]? := by
  rw [← List.getElem?_drop, h]

theorem take_succ_set {β : Type} (l : List β) (a : β) (w : Nat) (hw : w < l.length) :
    (l.set w a).take (w + 1) = l.take w ++ [a] := by
  rw [List.take_succ, take_set_of_le _ _ (Nat.le_refl w), List.getElem?_set_self hw]
  rfl

theorem escLoop_decode (len : Nat) (rest : List Nat) (hM : len < UINT_MOD) :
    ∀ (n : Nat) (text str : List Nat) (r w fuel : Nat), text.length = n →
      w ≤ r → r + text.length = len → str.drop r = text ++ 0 :: rest →
      (∀ c ∈ text, c ≠ 0) → endsInOpenEscape text = false → text.length < fuel →
      ∃ out, stringEscape.loop len fuel ⟨str, r, w⟩ = .ok (out, w + (refDecode text).length) ∧
        out.take (w + (refDecode text).length) = str.take w ++ refDecode text ∧
        out[w + (refDecode text).length]? = some 0 ∧ out.length = str.length := by
  intro n
  induction n using Nat.strong_induction_on with
  | _ n ih =>
    intro text str r w fuel hn hwr hr hdrop hnz hopen hf
    obtain ⟨f, rfl⟩ : ∃ f, fuel = f + 1 := ⟨fuel - 1, by omega⟩
    have hslen : str.length = r + (text.length + 1 + rest.length) := by
      have := congrArg List.length hdrop
      simp only [List.length_drop, List.length_append, List.length_cons] at this
      omega
    have hw : w < str.length := by omega
    cases text with
    | nil =>
      refine ⟨str.set w 0, ?_, ?_, ?_, ?_⟩
      · simp only [refDecode, List.length_nil, Nat.add_zero]
        exact escLoop_stop len f ⟨str, r, w⟩ hw (Or.inl (by simp at hr; simp; omega))
      · simp [refDecode, take_set_of_le]
      · simp [refDecode, List.getElem?_set_self hw]
      · simp
    | cons c t =>
      simp only [List.length_cons] at hn hr hf
      have hc0 : c ≠ 0 := hnz c (by simp)
      have hrl : r < len := by omega
      have hcr : str[r]? = some c := by
        have := getElem?_of_drop_eq hdrop 0
        simpa using this
      have hmod1 : (r + 1) % UINT_MOD = r + 1 := Nat.mod_eq_of_lt (by omega)
      have hmodw : (w + 1) % UINT_MOD = w + 1 := Nat.mod_eq_of_lt (by omega)
      by_cases hb : c = 92
      · subst hb
        cases t with
        | nil => simp [endsInOpenEscape] at hopen
        | cons d t =>
          simp only [List.length_cons] at hn hr hf
          have hd : str[r + 1]? = some d := by
            have := getElem?_of_drop_eq hdrop 1
            simpa using this
          have hmod2 : (r + 1 + 1) % UINT_MOD = r + 2 := Nat.mod_eq_of_lt (by omega)
          have hstep := escLoop_escape len f ⟨str, r, w⟩ d hrl hcr (by simpa [hmod1] using hd) hw
          simp only [hmod1, hmod2, hmodw] at hstep
          have hdrop2 : (str.set w (escapeSwitch d)).drop (r + 2) = t ++ 0 :: rest := by
            rw [List.drop_set_of_lt _ _ (by omega)]
            have := congrArg (List.drop 2) hdrop
            simpa [List.drop_drop] using this
          obtain ⟨out, h1, h2, h3, h4⟩ := ih t.length (by omega) t
            (str.set w (escapeSwitch d)) (r + 2) (w + 1) f rfl (by omega) (by omega) hdrop2
            (fun x hx => hnz x (by simp [hx])) (by simpa [endsInOpenEscape] using hopen)
            (by omega)
          have hk : w + (refDecode (92 :: d :: t)).length = w + 1 + (refDecode t).length := by
            simp [refDecode]; omega
          refine ⟨out, ?_, ?_, ?_, ?_⟩
          · rw [hstep, h1, hk]
          · rw [hk, h2, take_succ_set _ _ _ hw, escapeSwitch_eq_refEscape]
            simp [refDecode]
          · rw [hk, h3]
          · rw [h4]; simp
      · have hstep := escLoop_plain len f ⟨str, r, w⟩ c hrl hcr hc0 hb hw
        simp only [hmod1, hmodw] at hstep
        have hdrop1 : (str.set w c).drop (r + 1) = t ++ 0 :: rest := by
          rw [List.drop_set_of_lt _ _ (by omega)]
          have := congrArg (List.drop 1) hdrop
          simpa [List.drop_drop] using this
        obtain ⟨out, h1, h2, h3, h4⟩ := ih t.length (by omega) t
          (str.set w c) (r + 1) (w + 1) f rfl (by omega) (by omega) hdrop1
          (fun x hx => hnz x (by simp [hx]))
          (by rw [← endsInOpenEscape_cons_plain c t hb]; exact hopen) (by omega)
        have hk : w + (refDecode (c :: t)).length = w + 1 + (refDecode t).length := by
          rw [refDecode_cons_plain c t hb]; simp; omega
        refine ⟨out, ?_, ?_, ?_, ?_⟩
        · rw [hstep, h1, hk]
        · rw [hk, h2, take_succ_set _ _ _ hw, refDecode_cons_plain c t hb]
          simp
        · rw [hk, h3]
        · rw [h4]; simp

theorem refDecode_ne_zero (n : Nat) : ∀ (text : List Nat), text.length = n →
    (∀ c ∈ text, c ≠ 0) → endsInOpenEscape text = false → ∀ c ∈ refDecode text, c ≠ 0 := by
  induction n using Nat.strong_induction_on with
  | _ n ih =>
    intro text hn hnz hopen
    cases text with
    | nil => simp [refDecode]
    | cons a t =>
      by_cases hb : a = 92
      · subst hb
        cases t with
        | nil => simp [endsInOpenEscape] at hopen
        | cons d t =>
          simp only [List.length_cons] at hn
          have hd : d ≠ 0 := hnz d (by simp)
          have hrd : refEscape d ≠ 0 := by
            unfold refEscape
            split_ifs <;> simp [hd]
          have := ih t.length (by omega) t rfl (fun x hx => hnz x (by simp [hx]))
            (by simpa [endsInOpenEscape] using hopen)
          intro c hc
          simp only [refDecode, if_true, List.mem_cons] at hc
          rcases hc with rfl | hc
          · exact hrd
          · exact this c hc
      · simp only [List.length_cons] at hn
        have := ih t.length (by omega) t rfl (fun x hx => hnz x (by simp [hx]))
          (by rw [← endsInOpenEscape_cons_plain a t hb]; exact hopen)
        intro c hc
        rw [refDecode_cons_plain a t hb, List.mem_cons] at hc
        rcases hc with rfl | hc
        · exact hnz c (by simp)
        · exact this c hc

theorem refDecode_append (n : Nat) : ∀ (pre post : List Nat), pre.length = n →
    endsInOpenEscape pre = false →
    refDecode (pre ++ post) = refDecode pre ++ refDecode post ∧
      endsInOpenEscape (pre ++ post) = endsInOpenEscape post := by
  induction n using Nat.strong_induction_on with
  | _ n ih =>
    intro pre post hn hopen
    cases pre with
    | nil => simp [refDecode]
    | cons a t =>
      by_cases hb : a = 92
      · subst hb
        cases t with
        | nil => simp [endsInOpenEscape] at hopen
        | cons d t =>
          simp only [List.length_cons] at hn
          have := ih t.length (by omega) t post rfl (by simpa [endsInOpenEscape] using hopen)
          simp [refDecode, endsInOpenEscape, this.1, this.2]
      · simp only [List.length_cons] at hn
        have := ih t.length (by omega) t post rfl
          (by rw [← endsInOpenEscape_cons_plain a t hb]; exact hopen)
        rw [List.cons_append, refDecode_cons_plain a _ hb, refDecode_cons_plain a _ hb,
          endsInOpenEscape_cons_plain a _ hb, this.1, this.2]
        simp

theorem stringEscape_of_well_escaped (text rest : List Nat) (fuel : Nat)
    (hlen : 1 ≤ text.length) (hM : text.length < UINT_MOD)
    (hnz : ∀ c ∈ text, c ≠ 0) (hopen : endsInOpenEscape text = false)
    (hf : text.length < fuel) :
    ∃ out, stringEscape fuel (some (text ++ 0 :: rest)) text.length =
        .ok (some out, (refDecode text).length) ∧
      out.take (refDecode text).length = refDecode text ∧
      out[(refDecode text).length]? = some 0 ∧
      out.length = (text ++ 0 :: rest).length := by
  obtain ⟨out, h1, h2, h3, h4⟩ := escLoop_decode text.length rest hM text.length text
    (text ++ 0 :: rest) 0 0 fuel rfl (Nat.le_refl 0) (by simp) (by simp) hnz hopen hf
  simp only [Nat.zero_add, List.take_zero, List.nil_append] at h1 h2 h3
  refine ⟨out, ?_, h2, h3, h4⟩
  have hne : ¬ text.length ≤ 0 := by omega
  simp [stringEscape, hne, h1]

theorem escLoop_prefix (len : Nat) (hM : len < UINT_MOD) :
    ∀ (n : Nat) (text str tail : List Nat) (r w : Nat), text.length = n →
      w ≤ r → r + text.length ≤ len → tail ≠ [] → str.drop r = text ++ tail →
      (∀ c ∈ text, c ≠ 0) → endsInOpenEscape text = false →
      ∃ str1, str1.length = str.length ∧
        str1.take (w + (refDecode text).length) = str.take w ++ refDecode text ∧
        str1.drop (r + text.length) = tail ∧
        ∀ f, stringEscape.loop len (f + (refDecode text).length) ⟨str, r, w⟩ =
          stringEscape.loop len f ⟨str1, r + text.length, w + (refDecode text).length⟩ := by
  intro n
  induction n using Nat.strong_induction_on with
  | _ n ih =>
    intro text str tail r w hn hwr hr htail hdrop hnz hopen
    have hslen : str.length = r + (text.length + tail.length) := by
      have := congrArg List.length hdrop
      simp only [List.length_drop, List.length_append] at this
      have : 0 < tail.length := List.length_pos.mpr htail
      omega
    have htl : 0 < tail.length := List.length_pos.mpr htail
    have hw : w < str.length := by omega
    cases text with
    | nil =>
      refine ⟨str, rfl, by simp [refDecode], by simpa using hdrop, ?_⟩
      intro f
      simp [refDecode]
    | cons c t =>
      simp only [List.length_cons] at hn hr
      have hc0 : c ≠ 0 := hnz c (by simp)
      have hrl : r < len := by omega
      have hcr : str[r]? = some c := by
        have := getElem?_of_drop_eq hdrop 0
        simpa using this
      have hmod1 : (r + 1) % UINT_MOD = r + 1 := Nat.mod_eq_of_lt (by omega)
      have hmodw : (w + 1) % UINT_MOD = w + 1 := Nat.mod_eq_of_lt (by omega)
      by_cases hb : c = 92
      · subst hb
        cases t with
        | nil => simp [endsInOpenEscape] at hopen
        | cons d t =>
          simp only [List.length_cons] at hn hr
          have hd : str[r + 1]? = some d := by
            have := getElem?_of_drop_eq hdrop 1
            simpa using this
          have hmod2 : (r + 1 + 1) % UINT_MOD = r + 2 := Nat.mod_eq_of_lt (by omega)
          have hdrop2 : (str.set w (escapeSwitch d)).drop (r + 2) = t ++ tail := by
            rw [List.drop_set_of_lt _ _ (by omega)]
            have := congrArg (List.drop 2) hdrop
            simpa [List.drop_drop] using this
          obtain ⟨str1, h1, h2, h3, h4⟩ := ih t.length (by omega) t
            (str.set w (escapeSwitch d)) tail (r + 2) (w + 1) rfl (by omega) (by omega) htail
            hdrop2 (fun x hx => hnz x (by simp [hx])) (by simpa [endsInOpenEscape] using hopen)
          have hk : (refDecode (92 :: d :: t)).length = (refDecode t).length + 1 := by
            simp [refDecode]
          refine ⟨str1, by rw [h1]; simp, ?_, ?_, ?_⟩
          · rw [hk, ← Nat.add_assoc, Nat.add_right_comm, h2, take_succ_set _ _ _ hw,
              escapeSwitch_eq_refEscape]
            simp [refDecode]
          · rw [← h3]; congr 1; simp only [List.length_cons]; omega
          · intro f
            have hstep := escLoop_escape len (f + (refDecode t).length) ⟨str, r, w⟩ d hrl hcr
              (by simpa [hmod1] using hd) hw
            simp only [hmod1, hmod2, hmodw] at hstep
            rw [hk, ← Nat.add_assoc, hstep, h4 f]
            congr 2
            · simp only [List.length_cons]; omega
            · omega
      · have hdrop1 : (str.set w c).drop (r + 1) = t ++ tail := by
          rw [List.drop_set_of_lt _ _ (by omega)]
          have := congrArg (List.drop 1) hdrop
          simpa [List.drop_drop] using this
        obtain ⟨str1, h1, h2, h3, h4⟩ := ih t.length (by omega) t
          (str.set w c) tail (r + 1) (w + 1) rfl (by omega) (by omega) htail hdrop1
          (fun x hx => hnz x (by simp [hx]))
          (by rw [← endsInOpenEscape_cons_plain c t hb]; exact hopen)
        have hk : (refDecode (c :: t)).length = (refDecode t).length + 1 := by
          rw [refDecode_cons_plain c t hb]; simp
        refine ⟨str1, by rw [h1]; simp, ?_, ?_, ?_⟩
        · rw [hk, ← Nat.add_assoc, Nat.add_right_comm, h2, take_succ_set _ _ _ hw,
            refDecode_cons_plain c t hb]
          simp
        · rw [← h3]; congr 1; simp only [List.length_cons]; omega
        · intro f
          have hstep := escLoop_plain len (f + (refDecode t).length) ⟨str, r, w⟩ c hrl hcr hc0 hb hw
          simp only [hmod1, hmodw] at hstep
          rw [hk, ← Nat.add_assoc, hstep, h4 f]
          congr 2
          · simp only [List.length_cons]; omega
          · omega

theorem refDecode_length_le (n : Nat) : ∀ (text : List Nat), text.length = n →
    (refDecode text).length ≤ text.length := by
  induction n using Nat.strong_induction_on with
  | _ n ih =>
    intro text hn
    match text, hn with
    | [], _ => simp [refDecode]
    | [c], _ => simp [refDecode]
    | c :: d :: t, hn =>
      simp only [List.length_cons] at hn
      have h1 := ih t.length (by omega) t rfl
      have h2 := ih (d :: t).length (by simp; omega) (d :: t) rfl
      simp only [List.length_cons] at h2
      by_cases hb : c = 92
      · simp [refDecode, hb]; omega
      · simp [refDecode, hb]; omega

/-! ## Claims about `stringEscape` -/

/-- C4. For a buffer holding a text of `len >= 1` non-nul characters followed
by a nul, where no escape-introducing backslash is the last character of the
text, `stringEscape(str, len)` returns the number of characters of the
reference decoding of the text and leaves exactly that decoding in
`str[0..ret)`. -/
theorem stringEscape_decodes (text rest : List Nat) (fuel : Nat)
    (hlen : 1 ≤ text.length) (hM : text.length < UINT_MOD)
    (hnz : ∀ c ∈ text, c ≠ 0) (hopen : endsInOpenEscape text = false)
    (hf : text.length < fuel) :
    ∃ out ret, stringEscape fuel (some (text ++ 0 :: rest)) text.length = .ok (some out, ret) ∧
      ret = (refDecode text).length ∧ out.take ret = refDecode text := by
  obtain ⟨out, h1, h2, _, _⟩ := stringEscape_of_well_escaped text rest fuel hlen hM hnz hopen hf
  exact ⟨out, _, h1, rfl, h2⟩

/-- C4, witness: the text `a`, backslash, `n`, `b` (codes 97, 92, 110, 98)
becomes `a`, newline, `b` (97, 10, 98) and `3` is returned. -/
theorem stringEscape_decodes_witness :
    (stringEscape 5 (some [97, 92, 110, 98, 0]) 4 = .ok (some [97, 10, 98, 0, 0], 3) ∧
      refDecode [97, 92, 110, 98] = [97, 10, 98]) ∧
    ∃ out ret, stringEscape 5 (some ([97, 92, 110, 98] ++ 0 :: [])) [97, 92, 110, 98].length
        = .ok (some out, ret) ∧
      ret = (refDecode [97, 92, 110, 98]).length ∧ out.take ret = refDecode [97, 92, 110, 98] :=
  ⟨⟨by decide, by decide⟩,
    stringEscape_decodes [97, 92, 110, 98] [] 5 (by decide) (by simp [UINT_MOD])
      (by decide) (by decide) (by decide)⟩

/-- C5. When the text ends in an escape-introducing backslash (the text is
`pre` followed by a backslash, `pre` without nul characters and not itself
ending in an open escape), `stringEscape` called with `len` equal to the string
length takes the terminating nul as the escaped character, stores it and counts
it: the returned length is one more than the decoded length of `pre`, and the
buffer holds a nul at index `ret - 1`, below the returned length.  The buffer
is nul-terminated at `ret`, but `ret` is not its string length. -/
theorem stringEscape_open_escape (pre rest : List Nat) (fuel : Nat)
    (hnz : ∀ c ∈ pre, c ≠ 0) (hopen : endsInOpenEscape pre = false)
    (hM : pre.length + 2 < UINT_MOD) (hf : pre.length + 2 < fuel) :
    ∃ out ret, stringEscape fuel (some ((pre ++ [92]) ++ 0 :: rest)) (pre ++ [92]).length
        = .ok (some out, ret) ∧
      ret = (refDecode pre).length + 1 ∧ out[ret]? = some 0 ∧ out[ret - 1]? = some 0 ∧
      ret - 1 < ret := by
  have hk := refDecode_length_le pre.length pre rfl
  obtain ⟨str1, h1, _, h3, h4⟩ := escLoop_prefix (pre.length + 1) (by omega) pre.length pre
    ((pre ++ [92]) ++ 0 :: rest) (92 :: 0 :: rest) 0 0 rfl (Nat.le_refl 0) (by omega)
    (by simp) (by simp) hnz hopen
  simp only [Nat.zero_add] at h3 h4
  have hlen1 : str1.length = pre.length + 2 + rest.length := by
    rw [h1]; simp; omega
  obtain ⟨f, rfl⟩ : ∃ f, fuel = f + 2 + (refDecode pre).length :=
    ⟨fuel - 2 - (refDecode pre).length, by omega⟩
  have hm1 : (pre.length + 1) % UINT_MOD = pre.length + 1 := Nat.mod_eq_of_lt (by omega)
  have hm2 : (pre.length + 1 + 1) % UINT_MOD = pre.length + 2 := Nat.mod_eq_of_lt (by omega)
  have hmw : ((refDecode pre).length + 1) % UINT_MOD = (refDecode pre).length + 1 :=
    Nat.mod_eq_of_lt (by omega)
  have hc : str1[pre.length]? = some 92 := by
    have := getElem?_of_drop_eq h3 0
    simpa using this
  have hd : str1[pre.length + 1]? = some 0 := by
    have := getElem?_of_drop_eq h3 1
    simpa using this
  have hs1 := escLoop_escape (pre.length + 1) (f + 1) ⟨str1, pre.length, (refDecode pre).length⟩ 0
    (by simp) hc (by simpa [hm1] using hd) (by simp only []; omega)
  simp only [hm1, hm2, hmw] at hs1
  have hsw : escapeSwitch 0 = 0 := rfl
  rw [hsw] at hs1
  have hs2 := escLoop_stop (pre.length + 1) f
    ⟨str1.set (refDecode pre).length 0, pre.length + 2, (refDecode pre).length + 1⟩
    (by simp only [List.length_set]; omega) (Or.inl (by simp))
  simp only [] at hs2
  refine ⟨(str1.set (refDecode pre).length 0).set ((refDecode pre).length + 1) 0,
    (refDecode pre).length + 1, ?_, rfl, ?_, ?_, by omega⟩
  · have hne : ¬ (pre ++ [92]).length ≤ 0 := by simp
    have hl : (pre ++ [92]).length = pre.length + 1 := by simp
    simp only [stringEscape, hne, if_false]
    rw [hl, h4 (f + 2), hs1, hs2]
  · rw [List.getElem?_set_self (by simp only [List.length_set]; omega)]
  · rw [Nat.add_sub_cancel, List.getElem?_set_ne (by omega),
      List.getElem?_set_self (by omega)]

/-- C5, at the text `a`, backslash (codes 97, 92) with `len = 2`: the call
returns `2` and leaves the buffer `a`, nul, nul, whose string length is `1`. -/
theorem stringEscape_open_escape_witness :
    stringEscape 4 (some [97, 92, 0]) 2 = .ok (some [97, 0, 0], 2) ∧
    ∃ out ret, stringEscape 4 (some (([97] ++ [92]) ++ 0 :: [])) ([97] ++ [92]).length
        = .ok (some out, ret) ∧
      ret = (refDecode [97]).length + 1 ∧ out[ret]? = some 0 ∧ out[ret - 1]? = some 0 ∧
      ret - 1 < ret :=
  ⟨by decide,
    stringEscape_open_escape [97] [] 4 (by decide) (by decide) (by simp [UINT_MOD]) (by decide)⟩

/-- C6. `stringEscape` returns `0` for a null `str` (there is no buffer to
write) and for `len = 0`; for a non-null buffer with `len = 0` the buffer after
the call is the buffer before it. -/
theorem stringEscape_null_or_empty (fuel len : Nat) (buf : List Nat) :
    stringEscape fuel none len = .ok (none, 0) ∧
      stringEscape fuel (some buf) 0 = .ok (some buf, 0) := by
  simp [stringEscape]

/-- C7. For every non-nul character `c` other than `e`, `a`, `b`, `n`, `r`,
`t`, the buffer holding backslash, `c`, nul is decoded with `len = 2` to `c`,
nul, and `1` is returned; inside a longer well-formed text the pair contributes
the single character `c` to the output, between the decodings of what
precedes and what follows it. -/
theorem stringEscape_other_escape (c : Nat) (pre post rest : List Nat) (fuel : Nat)
    (hc0 : c ≠ 0) (hc : c ∉ [101, 97, 98, 110, 114, 116])
    (hM : (pre ++ 92 :: c :: post).length < UINT_MOD)
    (hpre : ∀ x ∈ pre, x ≠ 0) (hpost : ∀ x ∈ post, x ≠ 0)
    (hopre : endsInOpenEscape pre = false) (hopost : endsInOpenEscape post = false)
    (hf : (pre ++ 92 :: c :: post).length < fuel) :
    stringEscape (fuel + 2) (some (92 :: c :: 0 :: rest)) 2 = .ok (some (c :: 0 :: 0 :: rest), 1) ∧
    ∃ out, stringEscape fuel (some ((pre ++ 92 :: c :: post) ++ 0 :: rest))
        (pre ++ 92 :: c :: post).length
        = .ok (some out, (refDecode pre).length + 1 + (refDecode post).length) ∧
      out.take ((refDecode pre).length + 1 + (refDecode post).length)
        = refDecode pre ++ c :: refDecode post := by
  have hsw : escapeSwitch c = c := by
    simp only [List.mem_cons, List.mem_singleton, List.not_mem_nil, or_false, not_or] at hc
    obtain ⟨h1, h2, h3, h4, h5, h6⟩ := hc
    unfold escapeSwitch
    split <;> simp_all
  have hdec : refDecode (pre ++ 92 :: c :: post) = refDecode pre ++ c :: refDecode post := by
    rw [(refDecode_append pre.length pre _ rfl hopre).1]
    simp [refDecode, ← escapeSwitch_eq_refEscape, hsw]
  have hopen : endsInOpenEscape (pre ++ 92 :: c :: post) = false := by
    rw [(refDecode_append pre.length pre _ rfl hopre).2]
    simpa [endsInOpenEscape] using hopost
  constructor
  · have h1 : (1 : Nat) % UINT_MOD = 1 := by simp [UINT_MOD]
    have h2 : (2 : Nat) % UINT_MOD = 2 := by simp [UINT_MOD]
    have hs1 := escLoop_escape 2 (fuel + 1) ⟨92 :: c :: 0 :: rest, 0, 0⟩ c (by simp) (by simp)
      (by simp [h1]) (by simp)
    have hs2 := escLoop_stop 2 fuel ⟨c :: c :: 0 :: rest, 2, 1⟩ (by simp) (Or.inl (by simp))
    simp only [Nat.zero_add, h1, h2, hsw, List.set_cons_zero] at hs1
    simp only [List.set_cons_succ, List.set_cons_zero] at hs2
    simp [stringEscape, hs1, hs2]
  · obtain ⟨out, h1, h2, _, _⟩ := stringEscape_of_well_escaped (pre ++ 92 :: c :: post) rest fuel
      (by simp; omega) hM
      (by
        intro x hx
        simp only [List.mem_append, List.mem_cons] at hx
        rcases hx with hx | rfl | rfl | hx
        · exact hpre x hx
        · decide
        · exact hc0
        · exact hpost x hx)
      hopen hf
    have hl : (refDecode (pre ++ 92 :: c :: post)).length
        = (refDecode pre).length + 1 + (refDecode post).length := by
      rw [hdec]; simp; omega
    rw [hl] at h1 h2
    exact ⟨out, h1, by rw [h2, hdec]⟩

/-- C7, witness: two backslashes with `len = 2` become one backslash followed
by nul, and `1` is returned. -/
theorem stringEscape_other_escape_witness :
    stringEscape (3 + 2) (some (92 :: 92 :: 0 :: [])) 2 = .ok (some (92 :: 0 :: 0 :: []), 1) ∧
    ∃ out, stringEscape 3 (some (([] ++ 92 :: 92 :: []) ++ 0 :: []))
        ([] ++ 92 :: 92 :: ([] : List Nat)).length
        = .ok (some out, (refDecode []).length + 1 + (refDecode []).length) ∧
      out.take ((refDecode []).length + 1 + (refDecode []).length)
        = refDecode [] ++ 92 :: refDecode [] :=
  stringEscape_other_escape 92 [] [] [] 3 (by decide) (by decide) (by simp [UINT_MOD])
    (by simp) (by simp) (by decide) (by decide) (by decide)

/-- When no escape-introducing backslash ends the text, the buffer is
nul-terminated at the returned length and no character below it is nul. -/
theorem stringEscape_terminated_of_well_escaped (text rest : List Nat) (fuel : Nat)
    (hlen : 1 ≤ text.length) (hM : text.length < UINT_MOD)
    (hnz : ∀ c ∈ text, c ≠ 0) (hopen : endsInOpenEscape text = false)
    (hf : text.length < fuel) :
    ∃ out ret, stringEscape fuel (some (text ++ 0 :: rest)) text.length = .ok (some out, ret) ∧
      out[ret]? = some 0 ∧ ∀ i, i < ret → ∃ c, out[i]? = some c ∧ c ≠ 0 := by
  obtain ⟨out, h1, h2, h3, _⟩ := stringEscape_of_well_escaped text rest fuel hlen hM hnz hopen hf
  refine ⟨out, _, h1, h3, ?_⟩
  intro i hi
  have hget : out[i]? = (refDecode text)[i]? := by
    rw [← h2, List.getElem?_take_of_lt hi]
  rw [hget, List.getElem?_eq_getElem hi]
  exact ⟨_, rfl, refDecode_ne_zero text.length text rfl hnz hopen _ (List.getElem_mem _)⟩

/-! ## Claims about the numeric helpers -/

/-- C11. For all `x` and `y`, `intMin`, `longMin` and `uintMin` return the
first argument when `x < y` and the second argument otherwise; the result is
at most `x`, at most `y`, one of the two arguments, and the mathematical
minimum (`min(3,5) = 3`, `min(5,3) = 3`, `min(4,4) = 4`). -/
theorem min_spec (x y : Int) (a b : Nat) :
    (intMin x y = (if x < y then x else y) ∧ intMin x y ≤ x ∧ intMin x y ≤ y ∧
      (intMin x y = x ∨ intMin x y = y) ∧ intMin x y = min x y) ∧
    (longMin x y = (if x < y then x else y) ∧ longMin x y ≤ x ∧ longMin x y ≤ y ∧
      (longMin x y = x ∨ longMin x y = y) ∧ longMin x y = min x y) ∧
    (uintMin a b = (if a < b then a else b) ∧ uintMin a b ≤ a ∧ uintMin a b ≤ b ∧
      (uintMin a b = a ∨ uintMin a b = b) ∧ uintMin a b = min a b) ∧
    (intMin 3 5 = 3 ∧ intMin 5 3 = 3 ∧ intMin 4 4 = 4) ∧
    (longMin 3 5 = 3 ∧ longMin 5 3 = 3 ∧ longMin 4 4 = 4) ∧
    (uintMin 3 5 = 3 ∧ uintMin 5 3 = 3 ∧ uintMin 4 4 = 4) := by
  refine ⟨?_, ?_, ?_, by decide, by decide, by decide⟩
  · unfold intMin
    split_ifs with h
    · exact ⟨rfl, le_refl _, le_of_lt h, Or.inl rfl, (min_eq_left (le_of_lt h)).symm⟩
    · exact ⟨rfl, not_lt.mp h, le_refl _, Or.inr rfl, (min_eq_right (not_lt.mp h)).symm⟩
  · unfold longMin
    split_ifs with h
    · exact ⟨rfl, le_refl _, le_of_lt h, Or.inl rfl, (min_eq_left (le_of_lt h)).symm⟩
    · exact ⟨rfl, not_lt.mp h, le_refl _, Or.inr rfl, (min_eq_right (not_lt.mp h)).symm⟩
  · unfold uintMin
    split_ifs with h
    · exact ⟨rfl, le_refl _, le_of_lt h, Or.inl rfl, (min_eq_left (le_of_lt h)).symm⟩
    · exact ⟨rfl, not_lt.mp h, le_refl _, Or.inr rfl, (min_eq_right (not_lt.mp h)).symm⟩

/-- C12. For all `x` and `y`, `intMax`, `longMax` and `uintMax` return the
first argument when `x > y` and the second argument otherwise; the result is
at least `x`, at least `y`, one of the two arguments, and the mathematical
maximum. -/
theorem max_spec (x y : Int) (a b : Nat) :
    (intMax x y = (if x > y then x else y) ∧ x ≤ intMax x y ∧ y ≤ intMax x y ∧
      (intMax x y = x ∨ intMax x y = y) ∧ intMax x y = max x y) ∧
    (longMax x y = (if x > y then x else y) ∧ x ≤ longMax x y ∧ y ≤ longMax x y ∧
      (longMax x y = x ∨ longMax x y = y) ∧ longMax x y = max x y) ∧
    (uintMax a b = (if a > b then a else b) ∧ a ≤ uintMax a b ∧ b ≤ uintMax a b ∧
      (uintMax a b = a ∨ uintMax a b = b) ∧ uintMax a b = max a b) ∧
    (intMax 3 5 = 5 ∧ intMax 5 3 = 5 ∧ intMax 4 4 = 4) ∧
    (longMax 3 5 = 5 ∧ longMax 5 3 = 5 ∧ longMax 4 4 = 4) ∧
    (uintMax 3 5 = 5 ∧ uintMax 5 3 = 5 ∧ uintMax 4 4 = 4) := by
  refine ⟨?_, ?_, ?_, by decide, by decide, by decide⟩
  · unfold intMax
    split_ifs with h
    · exact ⟨rfl, le_refl _, le_of_lt h, Or.inl rfl, (max_eq_left (le_of_lt h)).symm⟩
    · exact ⟨rfl, not_lt.mp h, le_refl _, Or.inr rfl, (max_eq_right (not_lt.mp h)).symm⟩
  · unfold longMax
    split_ifs with h
    · exact ⟨rfl, le_refl _, le_of_lt h, Or.inl rfl, (max_eq_left (le_of_lt h)).symm⟩
    · exact ⟨rfl, not_lt.mp h, le_refl _, Or.inr rfl, (max_eq_right (not_lt.mp h)).symm⟩
  · unfold uintMax
    split_ifs with h
    · exact ⟨rfl, le_refl _, le_of_lt h, Or.inl rfl, (max_eq_left (le_of_lt h)).symm⟩
    · exact ⟨rfl, not_lt.mp h, le_refl _, Or.inr rfl, (max_eq_right (not_lt.mp h)).symm⟩

theorem wrapInt_of_mem (n : Int) (h1 : INT_MIN ≤ n) (h2 : n ≤ INT_MAX) : wrapInt n = n := by
  unfold INT_MIN at h1
  unfold INT_MAX at h2
  unfold wrapInt
  rw [Int.emod_eq_of_lt (by omega) (by omega)]
  omega

theorem wrapLong_of_mem (n : Int) (h1 : LONG_MIN ≤ n) (h2 : n ≤ LONG_MAX) : wrapLong n = n := by
  unfold LONG_MIN at h1
  unfold LONG_MAX at h2
  unfold wrapLong
  rw [Int.emod_eq_of_lt (by omega) (by omega)]
  omega

theorem intAbs_of_gt_min (x : Int) (hx1 : INT_MIN < x) :
    intAbs x = (if x ≥ 0 then x else -x) ∧ 0 ≤ intAbs x ∧ intAbs x = |x| := by
  unfold intAbs
  split_ifs with h
  · exact ⟨rfl, h, (abs_of_nonneg h).symm⟩
  · have hw : wrapInt (-x) = -x := by
      apply wrapInt_of_mem
      · unfold INT_MIN; omega
      · unfold INT_MAX; unfold INT_MIN at hx1; omega
    rw [hw]
    exact ⟨rfl, by omega, (abs_of_neg (by omega)).symm⟩

theorem longAbs_of_gt_min (y : Int) (hy1 : LONG_MIN < y) :
    longAbs y = (if y ≥ 0 then y else -y) ∧ 0 ≤ longAbs y ∧ longAbs y = |y| := by
  unfold longAbs
  split_ifs with h
  · exact ⟨rfl, h, (abs_of_nonneg h).symm⟩
  · have hw : wrapLong (-y) = -y := by
      apply wrapLong_of_mem
      · unfold LONG_MIN; omega
      · unfold LONG_MAX; unfold LONG_MIN at hy1; omega
    rw [hw]
    exact ⟨rfl, by omega, (abs_of_neg (by omega)).symm⟩

/-- C13. For every `int` (and every `long`) `x` other than the most negative
value of its type, `intAbs` (`longAbs`) returns `x` if `x >= 0` and `-x`
otherwise; the result is non-negative and is the mathematical absolute value
of `x`. -/
theorem abs_spec (x y : Int) (hx : INT_MIN < x) (hy : LONG_MIN < y) :
    (intAbs x = (if x ≥ 0 then x else -x) ∧ 0 ≤ intAbs x ∧ intAbs x = |x|) ∧
    (longAbs y = (if y ≥ 0 then y else -y) ∧ 0 ≤ longAbs y ∧ longAbs y = |y|) :=
  ⟨intAbs_of_gt_min x hx, longAbs_of_gt_min y hy⟩

/-- C13, witness: `abs(-7) = 7`, `abs(7) = 7`, `abs(0) = 0`, and the theorem at
`x = -7`, `y = -7`. -/
theorem abs_spec_witness :
    (intAbs (-7) = 7 ∧ intAbs 7 = 7 ∧ intAbs 0 = 0 ∧
      longAbs (-7) = 7 ∧ longAbs 7 = 7 ∧ longAbs 0 = 0) ∧
    (intAbs (-7) = (if (-7 : Int) ≥ 0 then -7 else - -7) ∧ 0 ≤ intAbs (-7) ∧
      intAbs (-7) = |(-7 : Int)|) ∧
    (longAbs (-7) = (if (-7 : Int) ≥ 0 then -7 else - -7) ∧ 0 ≤ longAbs (-7) ∧
      longAbs (-7) = |(-7 : Int)|) :=
  ⟨by decide, abs_spec (-7) (-7) (by decide) (by decide)⟩

/-- C14. With overflow wrapping modulo `2 ^ 32` (`2 ^ 64`), `intAbs`
(`longAbs`) of the most negative value of its type is that same negative
value, and for every value `x` (`y`) of the type the result is negative
exactly when the argument is the most negative value. -/
theorem abs_most_negative (x y : Int) (hx : INT_MIN ≤ x) (hy : LONG_MIN ≤ y) :
    (intAbs INT_MIN = INT_MIN ∧ INT_MIN < 0 ∧ (intAbs x < 0 ↔ x = INT_MIN)) ∧
    (longAbs LONG_MIN = LONG_MIN ∧ LONG_MIN < 0 ∧ (longAbs y < 0 ↔ y = LONG_MIN)) := by
  have hi : intAbs INT_MIN = INT_MIN := by decide
  have hl : longAbs LONG_MIN = LONG_MIN := by decide
  refine ⟨⟨hi, by decide, ?_⟩, ⟨hl, by decide, ?_⟩⟩
  · constructor
    · intro hneg
      by_contra hne
      have := (intAbs_of_gt_min x (lt_of_le_of_ne hx (Ne.symm hne))).2.1
      omega
    · intro h
      rw [h, hi]
      decide
  · constructor
    · intro hneg
      by_contra hne
      have := (longAbs_of_gt_min y (lt_of_le_of_ne hy (Ne.symm hne))).2.1
      omega
    · intro h
      rw [h, hl]
      decide

/-- C14, witness: the theorem at the most negative values themselves, and at
`-7`, where the result is positive. -/
theorem abs_most_negative_witness :
    ((intAbs INT_MIN = INT_MIN ∧ INT_MIN < 0 ∧ (intAbs INT_MIN < 0 ↔ INT_MIN = INT_MIN)) ∧
      (longAbs LONG_MIN = LONG_MIN ∧ LONG_MIN < 0 ∧
        (longAbs LONG_MIN < 0 ↔ LONG_MIN = LONG_MIN))) ∧
    intAbs (-2147483648) = -2147483648 ∧
    longAbs (-9223372036854775808) = -9223372036854775808 ∧
    ¬ intAbs (-7) < 0 :=
  ⟨abs_most_negative INT_MIN LONG_MIN (by decide) (by decide), by decide, by decide, by decide⟩

/-! ## Claim about `floatLinearInterpolate` -/

/-! ## Rounding to binary32 is exact on binary32 values -/

/-- With `x_min = x_max` the division is by zero: the result is an infinity,
or not a number when `x = x_min` as well. -/
theorem floatLinearInterpolate_equal_bounds :
    floatLinearInterpolate (.fin false 3 0) (.fin false 7 0) (.fin false 7 0) (.fin false 0 0)
        (.fin false 25 2) = .inf true ∧
    floatLinearInterpolate (.fin false 7 0) (.fin false 7 0) (.fin false 7 0) (.fin false 0 0)
        (.fin false 25 2) = .nan := by
  decide

/-! ## Claim about `loadFile` -/

/-- C16. `loadFile` returns `0` and leaves `*text_out` as it was when the file
cannot be opened and when the buffer cannot be allocated; whenever a call
returns with `*text_out` changed, the file was opened and the allocation
succeeded. -/
theorem loadFile_failure (env : FileEnv) (filename : List Nat) (text_out : Option (List Nat)) :
    (env.fopen filename = none → loadFile env filename text_out = .ok (0, text_out)) ∧
    (∀ contents, env.fopen filename = some contents →
      env.malloc ((contents.length % UINT_MOD + 1) % UINT_MOD) = false →
      loadFile env filename text_out = .ok (0, text_out)) ∧
    (∀ ret t, loadFile env filename text_out = .ok (ret, t) → t ≠ text_out →
      ∃ contents, env.fopen filename = some contents ∧
        env.malloc ((contents.length % UINT_MOD + 1) % UINT_MOD) = true ∧
        ret = contents.length % UINT_MOD ∧
        t = some (contents.take ret ++ [0])) := by
  refine ⟨?_, ?_, ?_⟩
  · intro h
    simp [loadFile, h]
  · intro contents h hm
    simp only [loadFile, h, hm]
    rfl
  · intro ret t hres hne
    unfold loadFile at hres
    cases hf : env.fopen filename with
    | none =>
      rw [hf] at hres
      simp only [Res.ok.injEq, Prod.mk.injEq] at hres
      exact absurd hres.2.symm hne
    | some contents =>
      rw [hf] at hres
      simp only at hres
      cases hm : env.malloc ((contents.length % UINT_MOD + 1) % UINT_MOD) with
      | false =>
        rw [hm] at hres
        simp only [Bool.false_eq_true, if_false, Res.ok.injEq, Prod.mk.injEq] at hres
        exact absurd hres.2.symm hne
      | true =>
        rw [hm] at hres
        simp only [if_true] at hres
        split_ifs at hres with hlt
        simp only [Res.ok.injEq, Prod.mk.injEq] at hres
        obtain ⟨h1, h2⟩ := hres
        exact ⟨contents, rfl, hm, h1.symm, by rw [← h2, ← h1]⟩

/-- C16 at a concrete call: an unopenable file and a failed allocation both
give `0` and leave the previous `*text_out` (here the buffer `[9]`) in place;
a successful load of the three bytes `1, 2, 3` returns `3`. -/
theorem loadFile_failure_example :
    loadFile ⟨fun _ => none, fun _ => true⟩ [102] (some [9]) = .ok (0, some [9]) ∧
    loadFile ⟨fun _ => some [1, 2, 3], fun _ => false⟩ [102] (some [9]) = .ok (0, some [9]) ∧
    loadFile ⟨fun _ => some [1, 2, 3], fun _ => true⟩ [102] (some [9])
      = .ok (3, some [1, 2, 3, 0]) := by
  refine ⟨by decide, by decide, by decide⟩

/-! ## Termination of `LListLength` -/

theorem LListLength_loop_chainEnds {α : Type} (h : Heap α) :
    ∀ (k : Nat) (p : Ptr) (fuel : Nat) (n : Int), chainEnds h k p → k < fuel →
      LListLength.loop h fuel p n = .ok (n + k) := by
  intro k
  induction k with
  | zero =>
    intro p fuel n hend hf
    obtain ⟨f, rfl⟩ : ∃ f, fuel = f + 1 := ⟨fuel - 1, by omega⟩
    simp only [chainEnds] at hend
    subst hend
    simp [LListLength.loop]
  | succ k ih =>
    intro p fuel n hend hf
    obtain ⟨f, rfl⟩ : ∃ f, fuel = f + 1 := ⟨fuel - 1, by omega⟩
    cases p with
    | null => simp [chainEnds, Heap.deref] at hend
    | addr b off =>
      rw [chainEnds] at hend
      rw [LListLength.loop]
      cases hd : Heap.deref h (.addr b off) with
      | ok node =>
        rw [hd] at hend
        simp only at hend ⊢
        rw [ih node.next f (n + 1) hend (by omega)]
        congr 1
        push_cast
        ring
      | fault => rw [hd] at hend; exact absurd hend id
      | timeout => rw [hd] at hend; exact absurd hend id

/-- On a cyclic list the loop never stops: whatever the fuel, the run is still
going when the fuel is used up. -/
theorem LListLength_cyclic (fuel : Nat) :
    LListLength fuel cyclicHeap (.addr 0 0) = .timeout := by
  unfold LListLength
  generalize (0 : Int) = n
  induction fuel generalizing n with
  | zero => rfl
  | succ f ih =>
    rw [LListLength.loop]
    have hd : Heap.deref cyclicHeap (.addr 0 0) = .ok ⟨1, .addr 0 0⟩ := rfl
    rw [hd]
    exact ih (n + 1)

/-- C19. `LListLength` terminates on every list without a cycle: when the
chain of next-references from `list` reaches the terminal marker after `k`
nodes, the counting loop stops after `k` passes and returns the value `k`;
any amount of fuel above `k` gives that result, never a fault or a run that
is still going. -/
theorem LListLength_terminates {α : Type} (h : Heap α) (list : Ptr) (k fuel : Nat)
    (hend : chainEnds h k list) (hf : k < fuel) :
    LListLength fuel h list = .ok (k : Int) ∧
      LListLength fuel h list ≠ .timeout ∧ LListLength fuel h list ≠ .fault := by
  have := LListLength_loop_chainEnds h k list fuel 0 hend hf
  rw [Int.zero_add] at this
  rw [LListLength, this]
  exact ⟨rfl, by simp, by simp⟩

/-- C19, witness: the two-node list `5, 6` ends after two nodes and three
units of fuel are enough. -/
theorem LListLength_terminates_witness :
    LListLength 3 ([[some ⟨5, .addr 0 1⟩, some ⟨6, .null⟩]] : Heap Nat) (.addr 0 0)
        = .ok ((2 : Nat) : Int) ∧
      LListLength 3 ([[some ⟨5, .addr 0 1⟩, some ⟨6, .null⟩]] : Heap Nat) (.addr 0 0)
        ≠ .timeout ∧
      LListLength 3 ([[some ⟨5, .addr 0 1⟩, some ⟨6, .null⟩]] : Heap Nat) (.addr 0 0)
        ≠ .fault :=
  LListLength_terminates _ (.addr 0 0) 2 3 (by simp [chainEnds, Heap.deref]) (by decide)

/-! ## Bounds of `stringEscape` -/

theorem getElem?_take_succ_of_le {β : Type} (l : List β) {i n : Nat} (h : i ≤ n) :
    (l.take (n + 1))[i]? = l[i]? :=
  List.getElem?_take_of_lt (by omega)

theorem escLoop_bounds (len : Nat) (hM : len + 1 < UINT_MOD) :
    ∀ (fuel : Nat) (s : EscState), s.w ≤ s.r → s.w ≤ len → s.r ≤ len + 1 →
      len + 1 ≤ s.str.length → len - s.r < fuel →
      ∃ out ret, stringEscape.loop len fuel s = .ok (out, ret) ∧
        stringEscape.loop len fuel ⟨s.str.take (len + 1), s.r, s.w⟩
          = .ok (out.take (len + 1), ret) ∧
        ret ≤ len ∧ s.w ≤ ret ∧ out.length = s.str.length ∧
        out.drop (len + 1) = s.str.drop (len + 1) := by
  intro fuel
  induction fuel with
  | zero => intro s _ _ _ _ hf; omega
  | succ f ih =>
    intro s hwr hwl hrl hlen hf
    obtain ⟨str, r, w⟩ := s
    simp only at hwr hwl hrl hlen hf
    have hw : w < str.length := by omega
    have htl : (str.take (len + 1)).length = len + 1 := by
      rw [List.length_take]; omega
    have hwt : w < (str.take (len + 1)).length := by omega
    have hstop : ∀ (hs : ¬ r < len ∨ str[r]? = some 0),
        ∃ out ret, stringEscape.loop len (f + 1) ⟨str, r, w⟩ = .ok (out, ret) ∧
          stringEscape.loop len (f + 1) ⟨str.take (len + 1), r, w⟩
            = .ok (out.take (len + 1), ret) ∧
          ret ≤ len ∧ w ≤ ret ∧ out.length = str.length ∧
          out.drop (len + 1) = str.drop (len + 1) := by
      intro hs
      refine ⟨str.set w 0, w, escLoop_stop len f ⟨str, r, w⟩ hw hs, ?_, hwl, Nat.le_refl w,
        by simp, List.drop_set_of_lt _ _ (by omega)⟩
      rw [List.set_take]
      refine escLoop_stop len f ⟨str.take (len + 1), r, w⟩ hwt ?_
      rcases hs with hs | hs
      · exact Or.inl hs
      · by_cases hr : r < len
        · exact Or.inr (by simp only; rw [getElem?_take_succ_of_le str (by omega)]; exact hs)
        · exact Or.inl hr
    by_cases hr : r < len
    · have hrs : r < str.length := by omega
      have hcr : str[r]? = some (str.get ⟨r, hrs⟩) := List.getElem?_eq_getElem hrs
      generalize str.get ⟨r, hrs⟩ = c at hcr
      have hcrt : (str.take (len + 1))[r]? = some c := by
        rw [getElem?_take_succ_of_le str (by omega)]; exact hcr
      have hmodw : (w + 1) % UINT_MOD = w + 1 := Nat.mod_eq_of_lt (by omega)
      have hmod1 : (r + 1) % UINT_MOD = r + 1 := Nat.mod_eq_of_lt (by omega)
      by_cases hc0 : c = 0
      · subst hc0
        exact hstop (Or.inr hcr)
      · clear hstop
        by_cases hb : c = 92
        · subst hb
          have hr1 : r + 1 < str.length := by omega
          have hdr : str[r + 1]? = some (str.get ⟨r + 1, hr1⟩) := List.getElem?_eq_getElem hr1
          generalize str.get ⟨r + 1, hr1⟩ = d at hdr
          have hdrt : (str.take (len + 1))[r + 1]? = some d := by
            rw [getElem?_take_succ_of_le str (by omega)]; exact hdr
          have hmod2 : (r + 1 + 1) % UINT_MOD = r + 2 := Nat.mod_eq_of_lt (by omega)
          have hs1 := escLoop_escape len f ⟨str, r, w⟩ d hr hcr (by simpa [hmod1] using hdr) hw
          have hs2 := escLoop_escape len f ⟨str.take (len + 1), r, w⟩ d hr hcrt
            (by simpa [hmod1] using hdrt) hwt
          simp only [hmod1, hmod2, hmodw] at hs1 hs2
          obtain ⟨out, ret, h1, h2, h3, h4, h5, h6⟩ := ih ⟨str.set w (escapeSwitch d), r + 2, w + 1⟩
            (show w + 1 ≤ r + 2 by omega) (show w + 1 ≤ len by omega)
            (show r + 2 ≤ len + 1 by omega)
            (show len + 1 ≤ (str.set w (escapeSwitch d)).length by
              rw [List.length_set]; exact hlen)
            (show len - (r + 2) < f by omega)
          simp only [List.set_take] at h2
          have h4a : w + 1 ≤ ret := h4
          refine ⟨out, ret, by rw [hs1, h1], by rw [hs2, h2], h3, (show w ≤ ret by omega),
            by rw [h5]; simp, ?_⟩
          rw [h6]
          exact List.drop_set_of_lt _ _ (by omega)
        · have hs1 := escLoop_plain len f ⟨str, r, w⟩ c hr hcr hc0 hb hw
          have hs2 := escLoop_plain len f ⟨str.take (len + 1), r, w⟩ c hr hcrt hc0 hb hwt
          simp only [hmod1, hmodw] at hs1 hs2
          obtain ⟨out, ret, h1, h2, h3, h4, h5, h6⟩ := ih ⟨str.set w c, r + 1, w + 1⟩
            (show w + 1 ≤ r + 1 by omega) (show w + 1 ≤ len by omega)
            (show r + 1 ≤ len + 1 by omega)
            (show len + 1 ≤ (str.set w c).length by rw [List.length_set]; exact hlen)
            (show len - (r + 1) < f by omega)
          simp only [List.set_take] at h2
          have h4a : w + 1 ≤ ret := h4
          refine ⟨out, ret, by rw [hs1, h1], by rw [hs2, h2], h3, (show w ≤ ret by omega),
            by rw [h5]; simp, ?_⟩
          rw [h6]
          exact List.drop_set_of_lt _ _ (by omega)
    · exact hstop (Or.inl hr)

/-- C20. For every `len >= 1` below the unsigned maximum and every buffer of
at least `len + 1` characters, `stringEscape(str, len)` runs to its end
without touching a cell outside the buffer, returns a length `ret <= len`, and
uses only the cells at indices `<= len`: nothing beyond index `len` changes,
and the run on the buffer cut down to exactly `len + 1` characters (where any
access at an index `> len` would be a fault) returns the same length and the
same contents. -/
theorem stringEscape_bounds (buf : List Nat) (len fuel : Nat)
    (hlen : 1 ≤ len) (hM : len + 1 < UINT_MOD) (hbuf : len + 1 ≤ buf.length)
    (hf : len < fuel) :
    ∃ out ret, stringEscape fuel (some buf) len = .ok (some out, ret) ∧
      stringEscape fuel (some (buf.take (len + 1))) len = .ok (some (out.take (len + 1)), ret) ∧
      ret ≤ len ∧ out.length = buf.length ∧ out.drop (len + 1) = buf.drop (len + 1) := by
  obtain ⟨out, ret, h1, h2, h3, _, h5, h6⟩ := escLoop_bounds len hM fuel ⟨buf, 0, 0⟩
    (Nat.le_refl 0) (Nat.zero_le _) (Nat.zero_le _) hbuf (by simp only; omega)
  have hne : ¬ len ≤ 0 := by omega
  refine ⟨out, ret, ?_, ?_, h3, h5, h6⟩
  · simp only [stringEscape, hne, if_false, h1]
  · simp only [stringEscape, hne, if_false, h2]

/-- C20, witness: a backslash at index `len - 1 = 1` of a three-character
buffer; the character after it is read at index `len = 2` and the terminator
is written at index `2`. -/
theorem stringEscape_bounds_witness :
    stringEscape 3 (some [97, 92, 110]) 2 = .ok (some [97, 10, 0], 2) ∧
    ∃ out ret, stringEscape 3 (some [97, 92, 110]) 2 = .ok (some out, ret) ∧
      stringEscape 3 (some ([97, 92, 110].take (2 + 1))) 2 = .ok (some (out.take (2 + 1)), ret) ∧
      ret ≤ 2 ∧ out.length = [97, 92, 110].length ∧
      out.drop (2 + 1) = [97, 92, 110].drop (2 + 1) :=
  ⟨by decide,
    stringEscape_bounds [97, 92, 110] 2 3 (by decide) (by simp [UINT_MOD]) (by decide)
      (by decide)⟩

/-! ## The invariant `w <= r` of `stringEscape` -/

theorem escCond_true (len : Nat) (s : EscState) (c : Nat) (hr : s.r < len)
    (hc : s.str[s.r]? = some c) (h0 : c ≠ 0) : stringEscape.cond len s = .ok true := by
  simp [stringEscape.cond, hr, hc, h0]

theorem escCond_true_lt (len : Nat) (s : EscState) (h : stringEscape.cond len s = .ok true) :
    s.r < len := by
  unfold stringEscape.cond at h
  by_contra hr
  simp [hr] at h

theorem escBody_plain (s : EscState) (c : Nat) (hc : s.str[s.r]? = some c) (hb : c ≠ 92)
    (hw : s.w < s.str.length) :
    stringEscape.body s =
      .ok ⟨s.str.set s.w c, (s.r + 1) % UINT_MOD, (s.w + 1) % UINT_MOD⟩ := by
  simp [stringEscape.body, hc, BACKSLASH, hb, stringEscape.emit, hw]

theorem escBody_escape (s : EscState) (d : Nat) (hc : s.str[s.r]? = some 92)
    (hd : s.str[(s.r + 1) % UINT_MOD]? = some d) (hw : s.w < s.str.length) :
    stringEscape.body s =
      .ok ⟨s.str.set s.w (escapeSwitch d), ((s.r + 1) % UINT_MOD + 1) % UINT_MOD,
        (s.w + 1) % UINT_MOD⟩ := by
  simp [stringEscape.body, hc, BACKSLASH, hd, stringEscape.emit, hw]

theorem escBody_indices (s s1 : EscState) (h : stringEscape.body s = .ok s1) :
    s1.w = (s.w + 1) % UINT_MOD ∧
      (s1.r = (s.r + 1) % UINT_MOD ∨ s1.r = ((s.r + 1) % UINT_MOD + 1) % UINT_MOD) := by
  unfold stringEscape.body at h
  cases hc : s.str[s.r]? with
  | none => simp [hc] at h
  | some c =>
    rw [hc] at h
    simp only at h
    split_ifs at h with hb
    · cases hd : s.str[(s.r + 1) % UINT_MOD]? with
      | none => simp [hd] at h
      | some d =>
        rw [hd] at h
        simp only [stringEscape.emit] at h
        split_ifs at h
        cases h
        exact ⟨rfl, Or.inr rfl⟩
    · simp only [stringEscape.emit] at h
      split_ifs at h
      cases h
      exact ⟨rfl, Or.inl rfl⟩

theorem stateAt_succ (len k : Nat) (s s1 : EscState)
    (hc : stringEscape.cond len s = .ok true) (hb : stringEscape.body s = .ok s1) :
    stringEscape.stateAt len (k + 1) s = stringEscape.stateAt len k s1 := by
  simp [stringEscape.stateAt, hc, hb]

/-- Below the unsigned maximum the write index never passes the read index:
in every state the loop reaches, `w <= r`, and in every pass the store
`str[w] = c` happens at an index `w` not above the read index at that
moment. -/
theorem stateAt_write_le_read (len : Nat) (hM : len + 1 < UINT_MOD) :
    ∀ (k : Nat) (s s1 : EscState), s.w ≤ s.r → s.r ≤ len + 1 →
      stringEscape.stateAt len k s = some s1 →
      s1.w ≤ s1.r ∧ s1.r ≤ len + 1 ∧
        (stringEscape.cond len s1 = .ok true → s1.w ≤ stringEscape.readIndexAtWrite s1) := by
  intro k
  induction k with
  | zero =>
    intro s s1 hwr hrl h
    simp only [stringEscape.stateAt, Option.some.injEq] at h
    subst h
    refine ⟨hwr, hrl, ?_⟩
    intro hc
    have hr := escCond_true_lt len s hc
    unfold stringEscape.readIndexAtWrite
    split_ifs
    · rw [Nat.mod_eq_of_lt (by omega)]; omega
    · exact hwr
  | succ k ih =>
    intro s s1 hwr hrl h
    rw [stringEscape.stateAt] at h
    cases hc : stringEscape.cond len s with
    | ok b =>
      cases b with
      | false => simp [hc] at h
      | true =>
        rw [hc] at h
        simp only at h
        cases hb : stringEscape.body s with
        | ok s2 =>
          rw [hb] at h
          simp only at h
          have hr := escCond_true_lt len s hc
          obtain ⟨hw2, hr2⟩ := escBody_indices s s2 hb
          rw [Nat.mod_eq_of_lt (by omega)] at hw2
          rw [Nat.mod_eq_of_lt (show s.r + 1 < UINT_MOD by omega),
            Nat.mod_eq_of_lt (show s.r + 1 + 1 < UINT_MOD by omega)] at hr2
          exact ih s2 s1 (by omega) (by omega) h
        | fault => simp [hb] at h
        | timeout => simp [hb] at h
    | fault => simp [hc] at h
    | timeout => simp [hc] at h

theorem stateAt_plain_prefix (len : Nat) (hM : len < UINT_MOD) (tail : List Nat) :
    ∀ (text str : List Nat) (r w : Nat), w ≤ r → r + text.length ≤ len → tail ≠ [] →
      str.drop r = text ++ tail → (∀ c ∈ text, c ≠ 0 ∧ c ≠ 92) →
      ∃ str1, str1.length = str.length ∧ str1.drop (r + text.length) = tail ∧
        str1.take (w + text.length) = str.take w ++ text ∧
        ∀ j, stringEscape.stateAt len (text.length + j) ⟨str, r, w⟩ =
          stringEscape.stateAt len j ⟨str1, r + text.length, w + text.length⟩ := by
  intro text
  induction text with
  | nil =>
    intro str r w _ _ _ hdrop _
    exact ⟨str, rfl, by simpa using hdrop, by simp, fun j => by simp⟩
  | cons c t ih =>
    intro str r w hwr hr htail hdrop hplain
    simp only [List.length_cons] at hr
    have htl : 0 < tail.length := List.length_pos.mpr htail
    have hslen : str.length = r + (t.length + 1 + tail.length) := by
      have := congrArg List.length hdrop
      simp only [List.length_drop, List.length_append, List.length_cons] at this
      omega
    have hw : w < str.length := by omega
    have hcr : str[r]? = some c := by
      have := getElem?_of_drop_eq hdrop 0
      simpa using this
    obtain ⟨hc0, hcb⟩ := hplain c (by simp)
    have hcond := escCond_true len ⟨str, r, w⟩ c (show r < len by omega) hcr hc0
    have hbody := escBody_plain ⟨str, r, w⟩ c hcr hcb hw
    simp only [Nat.mod_eq_of_lt (show r + 1 < UINT_MOD by omega),
      Nat.mod_eq_of_lt (show w + 1 < UINT_MOD by omega)] at hbody
    have hdrop1 : (str.set w c).drop (r + 1) = t ++ tail := by
      rw [List.drop_set_of_lt _ _ (by omega)]
      have := congrArg (List.drop 1) hdrop
      simpa [List.drop_drop] using this
    obtain ⟨str1, h1, h2, h3, h4⟩ := ih (str.set w c) (r + 1) (w + 1) (by omega) (by omega)
      htail hdrop1 (fun x hx => hplain x (by simp [hx]))
    refine ⟨str1, by rw [h1]; simp, ?_, ?_, ?_⟩
    · rw [← h2]; congr 1; simp only [List.length_cons]; omega
    · have : w + (c :: t).length = w + 1 + t.length := by simp only [List.length_cons]; omega
      rw [this, h3, take_succ_set _ _ _ hw]
      simp
    · intro j
      have e1 : (c :: t).length + j = (t.length + j) + 1 := by
        simp only [List.length_cons]; omega
      have e2 : r + (c :: t).length = r + 1 + t.length := by
        simp only [List.length_cons]; omega
      have e3 : w + (c :: t).length = w + 1 + t.length := by
        simp only [List.length_cons]; omega
      rw [e1, stateAt_succ len _ _ _ hcond hbody, h4 j, e2, e3]

theorem stateAt_wrap (n : Nat) (hn : 0 < n) (hM : n + 2 = UINT_MOD) :
    ∃ s, stringEscape.stateAt (n + 1) (n + 1) ⟨List.replicate n 97 ++ [92, 0], 0, 0⟩ = some s ∧
      stringEscape.cond (n + 1) s = .ok true ∧ s.r = 0 ∧ s.w = n + 1 ∧
      stringEscape.readIndexAtWrite s = 0 := by
  obtain ⟨str1, h1, h2, h3, h4⟩ := stateAt_plain_prefix (n + 1) (by omega) [92, 0]
    (List.replicate n 97) (List.replicate n 97 ++ [92, 0]) 0 0 (Nat.le_refl 0)
    (by simp) (by simp) (by simp)
    (fun c hc => by rw [List.eq_of_mem_replicate hc]; decide)
  simp only [Nat.zero_add, List.length_replicate, List.take_zero, List.nil_append] at h2 h3 h4
  have hlen1 : str1.length = n + 2 := by rw [h1]; simp
  have hc : str1[n]? = some 92 := by
    have := getElem?_of_drop_eq h2 0
    simpa using this
  have hd : str1[n + 1]? = some 0 := by
    have := getElem?_of_drop_eq h2 1
    simpa using this
  have hm1 : (n + 1) % UINT_MOD = n + 1 := Nat.mod_eq_of_lt (by omega)
  have hm2 : (n + 1 + 1) % UINT_MOD = 0 := by
    rw [show n + 1 + 1 = UINT_MOD by omega, Nat.mod_self]
  have hcond := escCond_true (n + 1) ⟨str1, n, n⟩ 92 (show n < n + 1 by omega) hc (by decide)
  have hbody := escBody_escape ⟨str1, n, n⟩ 0 hc (by simpa [hm1] using hd)
    (show n < str1.length by omega)
  simp only [hm1, hm2] at hbody
  have hsw : escapeSwitch 0 = 0 := rfl
  rw [hsw] at hbody
  have hstate : stringEscape.stateAt (n + 1) (n + 1) ⟨List.replicate n 97 ++ [92, 0], 0, 0⟩ =
      some ⟨str1.set n 0, 0, n + 1⟩ := by
    rw [h4 1, stateAt_succ (n + 1) 0 _ _ hcond hbody]
    rfl
  have h0 : (str1.set n 0)[0]? = some 97 := by
    rw [List.getElem?_set_ne (by omega)]
    have : (str1.take n)[0]? = str1[0]? := List.getElem?_take_of_lt hn
    rw [← this, h3, List.getElem?_replicate, if_pos hn]
  refine ⟨_, hstate, escCond_true (n + 1) ⟨str1.set n 0, 0, n + 1⟩ 97 (by simp) h0 (by decide),
    rfl, rfl, ?_⟩
  simp [stringEscape.readIndexAtWrite, h0, BACKSLASH]

theorem bigBuf_eq : bigBuf = List.replicate (UINT_MOD - 2) 97 ++ [92, 0] := by
  rw [bigBuf]

/-- C18, at `len = 2 ^ 32 - 1` (the unsigned maximum) on a buffer of `2 ^ 32`
characters holding `2 ^ 32 - 2` letters `a`, a backslash and the terminating
nul.  The backslash sits at index `len - 1`; after that pass `r` has wrapped
from `2 ^ 32` to `0` while `w` is `2 ^ 32 - 1`, the loop condition still holds
(`str[0]` is `a`), and the next pass starts, and stores, with `w > r`. -/
theorem stringEscape_read_index_wraps :
    bigBuf.length = 2 ^ 32 ∧
    ∃ s, stringEscape.stateAt (2 ^ 32 - 1) (2 ^ 32 - 1) ⟨bigBuf, 0, 0⟩ = some s ∧
      stringEscape.cond (2 ^ 32 - 1) s = .ok true ∧
      s.r = 0 ∧ s.w = 2 ^ 32 - 1 ∧ stringEscape.readIndexAtWrite s = 0 ∧ s.r < s.w := by
  have hM : (2 : Nat) ^ 32 = UINT_MOD := rfl
  rw [hM]
  have h2 : 4 ≤ UINT_MOD := by simp [UINT_MOD]
  have e : UINT_MOD - 1 = UINT_MOD - 2 + 1 := by omega
  obtain ⟨s, hs1, hs2, hs3, hs4, hs5⟩ := stateAt_wrap (UINT_MOD - 2) (by omega) (by omega)
  rw [← bigBuf_eq, ← e] at hs1
  rw [← e] at hs2 hs4
  refine ⟨?_, s, hs1, hs2, hs3, hs4, hs5, by omega⟩
  rw [bigBuf_eq, List.length_append, List.length_replicate]
  simp only [List.length_cons, List.length_nil]
  omega

/-- C17, at the buffer `a`, backslash, nul, `b`, `c`, nul with the bound
`len = 5`: the text in the buffer has length `2`, but the call returns `4`.
The nul is taken as the character escaped by the backslash, so the scan goes
on behind the text and copies `b` and `c`. -/
theorem stringEscape_length_grows :
    ∃ out ret, stringEscape 6 (some [97, 92, 0, 98, 99, 0]) 5 = .ok (some out, ret) ∧
      out = [97, 0, 98, 99, 0, 0] ∧ ret = 4 ∧
      textLength [97, 92, 0, 98, 99, 0] 5 = 2 ∧
      textLength [97, 92, 0, 98, 99, 0] 5 < ret :=
  ⟨[97, 0, 98, 99, 0, 0], 4, by decide, rfl, rfl, by decide, by decide⟩

end MountainInh
